import Mathlib

/-!
Verification of the nscripter_formats library (archive containers and the SPB
image codec) against its natural-language specification.

The Rust sources are shallowly embedded: `u8`/`u16`/`u32` values become `Nat`
with explicit `% 256` (or byte decompositions) exactly where the machine
arithmetic can wrap, fallible operations (panics, `unwrap`) become `Option`,
and the `bitbuffer` big-endian bit streams become `List Bool` read MSB-first.
-/

namespace Rnscripter

/-! ### Big-endian bit-stream primitives

Model of the `bitbuffer` crate streams used by `encode_spb`/`decode_spb`
(image.rs): `write_int::<uN>(v, k)` appends the `k` low bits of `v` MSB-first,
`read_int` consumes `k` bits MSB-first, `write_bool`/1-bit reads are the
`k = 1` case.  A stream is a `List Bool`; reading past the end is the
`unwrap` panic, hence `Option`. -/

/-- The `k` low bits of `v`, most significant first (`write_int(v, k)`). -/
def bitsOf : Nat → Nat → List Bool
  | 0, _ => []
  | k + 1, v => bitsOf k (v / 2) ++ [decide (v % 2 = 1)]

/-- Big-endian interpretation of a bit list. -/
def natOfBits (bs : List Bool) : Nat :=
  bs.foldl (fun acc b => 2 * acc + (if b then 1 else 0)) 0

/-- Embeds `read_int(k)`: consume `k` bits MSB-first; `none` is the end-of-stream panic. -/
def readBits (k : Nat) (bs : List Bool) : Option (Nat × List Bool) :=
  if k ≤ bs.length then some (natOfBits (bs.take k), bs.drop k) else none

/-! ### image.rs: the SPB codec -/

/-- Wrapping `u8` addition. -/
def u8add (a b : Nat) : Nat := (a + b) % 256

/-- Wrapping `u8` subtraction (every call site has `b < 256`). -/
def u8sub (a b : Nat) : Nat := (a + 256 - b) % 256

/-- Embeds `min_bits` helper loop from image.rs: count the bits of `value`,
starting from a running count `bits`. -/
def minBitsAux (value bits : Nat) : Nat :=
  if value = 0 then bits else minBitsAux (value / 2) (bits + 1)
termination_by value
decreasing_by exact Nat.div_lt_self (Nat.pos_of_ne_zero (by assumption)) (by omega)

/-- Embeds `min_bits` (image.rs): 0 for 0, else the bit width of `value`. -/
def minBits (value : Nat) : Nat :=
  if value = 0 then 0 else minBitsAux (value / 2) 1

/-- Embeds `SpbDifference` (image.rs): one sample's add/subtract flag and encoded
magnitude relative to the previous byte. -/
structure SpbDifference where
  add_difference : Bool
  difference : Nat
deriving DecidableEq

/-- Embeds `SpbDifferences` (image.rs): the window's four differences and the
magnitude bit width the decoder will read. -/
structure SpbDifferences where
  d0 : SpbDifference
  d1 : SpbDifference
  d2 : SpbDifference
  d3 : SpbDifference
  bits_to_read : Nat
deriving DecidableEq

/-- Embeds `SpbHeader` (image.rs): the four chunk categories. -/
inductive SpbHeader where
  | stamp4 : SpbHeader
  | readBitsHdr : SpbDifferences → SpbHeader
  | read4 : SpbHeader
  | readBitPlusOne : SpbDifferences → SpbHeader
deriving DecidableEq

/-- One iteration of the difference loop in `bit_distances` (image.rs):
returns the `SpbDifference`, the updated `last_byte` (wrapping `u8 +=`/`-=`),
and whether this iteration set `implicit_add`. -/
def spbStep (lastByte channelByte : Nat) : SpbDifference × Nat × Bool :=
  let add_difference := lastByte < channelByte
  let initialDifference :=
    if lastByte < channelByte then channelByte - lastByte else lastByte - channelByte
  if add_difference then
    (⟨true, initialDifference - 1⟩, u8add lastByte initialDifference, true)
  else
    (⟨false, initialDifference⟩, u8sub lastByte initialDifference, false)

/-- Embeds `bit_distances` (image.rs): classify a 4-sample window relative to
`last_byte`.  The two `panic!` consistency checks are `none`. -/
def bitDistances (lastByte b0 b1 b2 b3 : Nat) : Option SpbHeader :=
  let s0 := spbStep lastByte b0
  let s1 := spbStep s0.2.1 b1
  let s2 := spbStep s1.2.1 b2
  let s3 := spbStep s2.2.1 b3
  let d0 := s0.1
  let d1 := s1.1
  let d2 := s2.1
  let d3 := s3.1
  let maxBitsToRead :=
    ((((0 : Nat).max (minBits d0.difference)).max (minBits d1.difference)).max
      (minBits d2.difference)).max (minBits d3.difference)
  let implicitAdd := s0.2.2 || s1.2.2 || s2.2.2 || s3.2.2
  if lastByte = b0 ∧ lastByte = b1 ∧ lastByte = b2 ∧ lastByte = b3 ∧ maxBitsToRead ≠ 0 then
    none
  else if (1 < maxBitsToRead ∧ maxBitsToRead < 7) ∧
      ¬(1 < d0.difference ∨ 1 < d1.difference ∨ 1 < d2.difference ∨ 1 < d3.difference) then
    none
  else if maxBitsToRead = 0 then
    if implicitAdd then
      some (.readBitPlusOne ⟨d0, d1, d2, d3, maxBitsToRead⟩)
    else
      some .stamp4
  else if maxBitsToRead = 1 then
    some (.readBitPlusOne ⟨d0, d1, d2, d3, maxBitsToRead⟩)
  else if maxBitsToRead ≤ 6 then
    some (.readBitsHdr ⟨d0, d1, d2, d3, maxBitsToRead⟩)
  else
    some .read4

/-- A 24-bit BGR pixel (`[u8; 3]`, channel 0 = B, 1 = G, 2 = R). -/
abbrev Pixel : Type := Nat × Nat × Nat

/-- Channel selection `pixel[channel]`. -/
def chan (c : Nat) (p : Pixel) : Nat :=
  match c with
  | 0 => p.1
  | 1 => p.2.1
  | _ => p.2.2

/-- The zero pixel `[0; 3]` pushed as scratch tail by the encoder. -/
def zeroPixel : Pixel := (0, 0, 0)

/-- Index map of the serpentine preprocessing in `encode_spb` / the serpentine
read-back in `decode_spb`: odd rows are traversed right-to-left. -/
def serpIdx (w idx : Nat) : Nat :=
  let y := idx / w
  let x := idx % w
  if y % 2 = 1 then y * w + (w - 1 - x) else idx

/-- The encoder's in-place reversal of every odd row of a `w × h` pixel
buffer, expressed as an index map (the buffer has length `w * h`). -/
def serpentine (w h : Nat) (pixels : List Pixel) : List Pixel :=
  (List.range (w * h)).map (fun idx => pixels.getD (serpIdx w idx) zeroPixel)

/-- Embeds `last_data_byte` update in the encoder's `ReadBits`/`ReadBitPlusOne`
arms (wrapping `u8 +=` / `-=`). -/
def applyDiff (lastByte : Nat) (d : SpbDifference) : Nat :=
  if d.add_difference then u8add lastByte (d.difference + 1) else u8sub lastByte d.difference

/-- Bits written for one difference in the `ReadBits` arm of `encode_spb`:
the magnitude in `bits_to_read` bits, then the add flag. -/
def readBitsFieldBits (bitsToRead : Nat) (d : SpbDifference) : List Bool :=
  bitsOf bitsToRead d.difference ++ [d.add_difference]

/-- Bits written for one difference in the `ReadBitPlusOne` arm of
`encode_spb`: a 1-bit magnitude only when `bits_to_read == 1`, then the
add flag. -/
def rbpoFieldBits (bitsToRead : Nat) (d : SpbDifference) : List Bool :=
  (if bitsToRead = 1 then bitsOf 1 d.difference else []) ++ [d.add_difference]

/-- The `while i < total_pixels` chunk loop of `encode_spb` for one channel:
`buf` is the channel's byte sequence (serpentine pixels plus scratch tail),
`lastByte` is `last_data_byte`.  `none` propagates the `bit_distances`
panics. -/
def encodeChunks (buf : List Nat) (total i lastByte : Nat) : Option (List Bool) :=
  if i < total then
    match bitDistances lastByte (buf.getD i 0) (buf.getD (i + 1) 0) (buf.getD (i + 2) 0)
        (buf.getD (i + 3) 0) with
    | none => none
    | some .stamp4 =>
      match encodeChunks buf total (i + 4) lastByte with
      | none => none
      | some rest => some (bitsOf 3 0 ++ rest)
    | some .read4 =>
      match encodeChunks buf total (i + 4) (buf.getD (i + 3) 0) with
      | none => none
      | some rest =>
        some (bitsOf 3 6 ++ bitsOf 8 (buf.getD i 0) ++ bitsOf 8 (buf.getD (i + 1) 0) ++
          bitsOf 8 (buf.getD (i + 2) 0) ++ bitsOf 8 (buf.getD (i + 3) 0) ++ rest)
    | some (.readBitPlusOne d) =>
      match encodeChunks buf total (i + 4)
          (applyDiff (applyDiff (applyDiff (applyDiff lastByte d.d0) d.d1) d.d2) d.d3) with
      | none => none
      | some rest =>
        some (bitsOf 3 7 ++ [decide (d.bits_to_read = 1)] ++
          rbpoFieldBits d.bits_to_read d.d0 ++ rbpoFieldBits d.bits_to_read d.d1 ++
          rbpoFieldBits d.bits_to_read d.d2 ++ rbpoFieldBits d.bits_to_read d.d3 ++ rest)
    | some (.readBitsHdr d) =>
      match encodeChunks buf total (i + 4)
          (applyDiff (applyDiff (applyDiff (applyDiff lastByte d.d0) d.d1) d.d2) d.d3) with
      | none => none
      | some rest =>
        some (bitsOf 3 (d.bits_to_read - 1) ++
          readBitsFieldBits d.bits_to_read d.d0 ++ readBitsFieldBits d.bits_to_read d.d1 ++
          readBitsFieldBits d.bits_to_read d.d2 ++ readBitsFieldBits d.bits_to_read d.d3 ++ rest)
  else
    some []
termination_by total - i
decreasing_by all_goals omega

/-- One channel of `encode_spb`: the first byte as a literal `u8`, then the
chunk loop starting at index 1. -/
def encodeChannel (buf : List Nat) (total : Nat) : Option (List Bool) :=
  match encodeChunks buf total 1 (buf.getD 0 0) with
  | none => none
  | some rest => some (bitsOf 8 (buf.getD 0 0) ++ rest)

/-- Embeds `encode_spb` (image.rs): reverse odd rows, append four `[0; 3]` scratch
pixels, write big-endian `u16` width and height, then the three channel
streams in B, G, R order.  The output is the bit stream (byte packing with
trailing zero padding is the external `bitbuffer` writer). -/
def encodeSpb (w h : Nat) (pixels : List Pixel) : Option (List Bool) :=
  let working := serpentine w h pixels ++ [zeroPixel, zeroPixel, zeroPixel, zeroPixel]
  let total := w * h
  match encodeChannel (working.map (chan 0)) total with
  | none => none
  | some c0 =>
    match encodeChannel (working.map (chan 1)) total with
    | none => none
    | some c1 =>
      match encodeChannel (working.map (chan 2)) total with
      | none => none
      | some c2 => some (bitsOf 16 w ++ bitsOf 16 h ++ c0 ++ c1 ++ c2)

/-- One iteration of the decoder's 4-field loop: split the raw field into
add flag (low bit) and magnitude, and update `data_byte` (wrapping `u8`). -/
def decodeByteStep (dataByte modifyRaw : Nat) : Nat :=
  let add := modifyRaw % 2 = 1
  let m := modifyRaw / 2
  if add then u8add dataByte (m + 1) else u8sub dataByte m

/-- The decoder's `for _ in 0..4` field loop: read four `bitsToRead`-bit
fields, emitting four bytes; returns them with the final `data_byte`. -/
def decodeFields (bitsToRead dataByte : Nat) (bits : List Bool) :
    Option ((Nat × Nat × Nat × Nat) × Nat × List Bool) :=
  match readBits bitsToRead bits with
  | none => none
  | some (m0, bits0) =>
    match readBits bitsToRead bits0 with
    | none => none
    | some (m1, bits1) =>
      match readBits bitsToRead bits1 with
      | none => none
      | some (m2, bits2) =>
        match readBits bitsToRead bits2 with
        | none => none
        | some (m3, bits3) =>
          some ((decodeByteStep dataByte m0,
                 decodeByteStep (decodeByteStep dataByte m0) m1,
                 decodeByteStep (decodeByteStep (decodeByteStep dataByte m0) m1) m2,
                 decodeByteStep (decodeByteStep (decodeByteStep (decodeByteStep dataByte m0) m1)
                   m2) m3),
                decodeByteStep (decodeByteStep (decodeByteStep (decodeByteStep dataByte m0) m1)
                  m2) m3, bits3)

/-- The `while i < width * height` chunk loop of `decode_spb` for one
channel.  `dataByte` is `channel_buffer[i - 1]`; the emitted bytes are
returned as a list (the decoder writes them at consecutive indices). -/
def decodeChunks (total i dataByte : Nat) (bits : List Bool) :
    Option (List Nat × List Bool) :=
  if i < total then
    match readBits 3 bits with
    | none => none
    | some (header, bits1) =>
      if header = 0 then
        match decodeChunks total (i + 4) dataByte bits1 with
        | none => none
        | some (out, bits2) =>
          some (dataByte :: dataByte :: dataByte :: dataByte :: out, bits2)
      else if header = 6 then
        match readBits 8 bits1 with
        | none => none
        | some (v0, bits2) =>
          match readBits 8 bits2 with
          | none => none
          | some (v1, bits3) =>
            match readBits 8 bits3 with
            | none => none
            | some (v2, bits4) =>
              match readBits 8 bits4 with
              | none => none
              | some (v3, bits5) =>
                match decodeChunks total (i + 4) v3 bits5 with
                | none => none
                | some (out, bits6) => some (v0 :: v1 :: v2 :: v3 :: out, bits6)
      else
        match
          (if 1 ≤ header ∧ header ≤ 5 then some (header + 2, bits1)
           else if header = 7 then
             match readBits 1 bits1 with
             | none => none
             | some (b, bits2) => some (b + 1, bits2)
           else none) with
        | none => none
        | some (bitsToRead, bits2) =>
          match decodeFields bitsToRead dataByte bits2 with
          | none => none
          | some ((y0, y1, y2, y3), dataByte', bits3) =>
            match decodeChunks total (i + 4) dataByte' bits3 with
            | none => none
            | some (out, bits4) => some (y0 :: y1 :: y2 :: y3 :: out, bits4)
  else
    some ([], bits)
termination_by total - i
decreasing_by all_goals omega

/-- One channel of `decode_spb`: a literal first byte, then the chunk loop
starting at index 1. -/
def decodeChannel (total : Nat) (bits : List Bool) : Option (List Nat × List Bool) :=
  match readBits 8 bits with
  | none => none
  | some (first, bits1) =>
    match decodeChunks total 1 first bits1 with
    | none => none
    | some (out, bits2) => some (first :: out, bits2)

/-- Embeds `decode_spb` (image.rs): read `u16` width and height, decode the three
channel streams (first stream into channel slot 2, then 1, then 0; slot 0
is read back as R, slot 2 as B), and re-lay the pixels through the
serpentine index map.  The result is the decoded pixel grid in row-major
BGR order — the pixel data the external BMP writer serializes. -/
def decodeSpb (bits : List Bool) : Option (Nat × Nat × List Pixel) :=
  match readBits 16 bits with
  | none => none
  | some (w, bits1) =>
    match readBits 16 bits1 with
    | none => none
    | some (h, bits2) =>
      let total := w * h
      match decodeChannel total bits2 with
      | none => none
      | some (slot2, bits3) =>
        match decodeChannel total bits3 with
        | none => none
        | some (slot1, bits4) =>
          match decodeChannel total bits4 with
          | none => none
          | some (slot0, _) =>
            let rBuf := slot0
            let gBuf := slot1
            let bBuf := slot2
            some (w, h, (List.range total).map (fun idx =>
              ((bBuf.getD (serpIdx w idx) 0, gBuf.getD (serpIdx w idx) 0,
                rBuf.getD (serpIdx w idx) 0) : Pixel)))

/-! ### archive.rs: Byte I/O (`FileHelper`) -/

/-- Embeds `Compression` (archive.rs). -/
inductive Compression where
  | none : Compression
  | spb : Compression
  | lzss : Compression
  | bzip2 : Compression
deriving DecidableEq

/-- Keytable substitution `key_table[byte]`. -/
def keytableLookup (keyTable : List Nat) (b : Nat) : Nat := keyTable.getD b 0

/-- Embeds `default_keytable` (lib.rs): the identity table `[0, 1, …, 255]`. -/
def defaultKeytable : List Nat := List.range 256

/-- Embeds `read_slice(offset, size)` (archive.rs): seek absolute, read `size` raw
bytes into a zero-initialised buffer with a single unchecked `read`; bytes
past end-of-stream stay `0`, no keytable, no error. -/
def readSlice (file : List Nat) (offset size : Nat) : List Nat :=
  (List.range size).map (fun k =>
    if offset + k < file.length then file.getD (offset + k) 0 else 0)

/-- Embeds `read_slice_through_keytable` (archive.rs): `read_slice`, then substitute
each byte through the keytable. -/
def readSliceThroughKeytable (keyTable : List Nat) (file : List Nat) (offset size : Nat) :
    List Nat :=
  (readSlice file offset size).map (keytableLookup keyTable)

/-- Embeds `read_buffer::<N>` (archive.rs): `read_exact` of `N` bytes at `position`,
keytable-substituted; a short read is the `panic!("Unexpected end of file")`.
Returns the bytes and the advanced position. -/
def readBuffer (keyTable : List Nat) (file : List Nat) (position n : Nat) :
    Option (List Nat × Nat) :=
  if position + n ≤ file.length then
    some (((file.drop position).take n).map (keytableLookup keyTable), position + n)
  else
    Option.none

/-- Embeds `write_buffer` (archive.rs): append the bytes as-is — the writer does NOT
apply the keytable. -/
def writeBuffer (file : List Nat) (buffer : List Nat) : List Nat := file ++ buffer

/-! ### archive.rs: header parsers

The Shift-JIS string codec is external (`encoding_rs`), so entry names reach
these embeddings already decoded, and the fixed-width big-endian field reads
are the Byte I/O layer above; each parser is embedded over the per-entry
field tuples its loop reads. -/

/-- A parsed directory entry (`ArchiveEntry`, archive.rs). -/
structure ArchiveEntry where
  name : List Char
  offset : Nat
  size : Nat
  decompressed_size : Option Nat
  compression : Compression
deriving DecidableEq

/-- One iteration of the `parse_sar_header` loop (archive.rs): every SAR
entry is RAW with `decompressed_size = Some(size)`. -/
def parseSarEntry (name : List Char) (offsetField size fileOffset : Nat) : ArchiveEntry :=
  { name := name, offset := offsetField + fileOffset, size := size,
    decompressed_size := some size, compression := Compression.none }

/-- Embeds `parse_sar_header` (archive.rs) over the raw `(name, offset, size)`
field tuples its loop reads; `fileOffset` is `header_end + base offset`. -/
def parseSarHeader (raw : List (List Char × Nat × Nat)) (fileOffset : Nat) :
    List ArchiveEntry :=
  raw.map (fun e => parseSarEntry e.1 e.2.1 e.2.2 fileOffset)

/-- The compression-tag match in `parse_nsa_header` (archive.rs): tag 0 is
RAW subject to the lowercase `.nbz`/`.spb` extension override; an unknown
tag is the `panic!`. -/
def nsaEffectiveCompression (tagByte : Nat) (name : List Char) : Option Compression :=
  if tagByte = 0 then
    if ".nbz".toList.isSuffixOf (name.map Char.toLower) then some Compression.bzip2
    else if ".spb".toList.isSuffixOf (name.map Char.toLower) then some Compression.spb
    else some Compression.none
  else if tagByte = 1 then some Compression.spb
  else if tagByte = 2 then some Compression.lzss
  else if tagByte = 4 then some Compression.bzip2
  else Option.none

/-- One iteration of the `parse_nsa_header` loop (archive.rs): the on-disk
`decompressed_size` field is read, then discarded (set to unknown) for BZ2
and SPB entries. -/
def parseNsaEntry (name : List Char) (tagByte offsetField sizeField dsizeField fileOffset : Nat) :
    Option ArchiveEntry :=
  match nsaEffectiveCompression tagByte name with
  | Option.none => Option.none
  | some compression =>
    let decompressedSize : Option Nat :=
      if compression = Compression.bzip2 ∨ compression = Compression.spb then Option.none
      else some dsizeField
    some { name := name, offset := offsetField + fileOffset, size := sizeField,
           decompressed_size := decompressedSize, compression := compression }

/-- Embeds `parse_nsa_header` (archive.rs) over the raw
`(name, tag, offset, size, decompressed_size)` field tuples its loop reads. -/
def parseNsaHeader (raw : List (List Char × Nat × Nat × Nat × Nat)) (fileOffset : Nat) :
    Option (List ArchiveEntry) :=
  raw.mapM (fun e => parseNsaEntry e.1 e.2.1 e.2.2.1 e.2.2.2.1 e.2.2.2.2 fileOffset)

/-- The extension-based compression choice in `parse_ns2_header` (archive.rs). -/
def ns2Compression (name : List Char) : Compression :=
  if ".nbz".toList.isSuffixOf (name.map Char.toLower) then Compression.bzip2
  else if ".spb".toList.isSuffixOf (name.map Char.toLower) then Compression.spb
  else Compression.none

/-- One iteration of the `parse_ns2_header` loop (archive.rs): every NS2
entry is built with `decompressed_size: None`. -/
def parseNs2Entry (name : List Char) (size fileOffset : Nat) : ArchiveEntry :=
  { name := name, offset := fileOffset, size := size,
    decompressed_size := Option.none, compression := ns2Compression name }

/-- Embeds `parse_ns2_header` (archive.rs) over the raw `(name, size)` pairs its
loop reads: entry bodies are laid out contiguously from `offsetOfFileData`. -/
def parseNs2Header (raw : List (List Char × Nat)) (offsetOfFileData : Nat) :
    List ArchiveEntry :=
  (raw.foldl
    (fun (st : List ArchiveEntry × Nat) e =>
      (st.1 ++ [parseNs2Entry e.1 e.2 st.2], st.2 + e.2))
    ([], offsetOfFileData)).1

/-- The BZ2 arm of `extract` (archive.rs): skip the 4-byte size prefix and
stream the remainder through the (external) bzip2 decoder. -/
def extractBzip2 (bz2Decompress : List Nat → List Nat) (body : List Nat) : List Nat :=
  bz2Decompress (body.drop 4)

/-! ### archive.rs: archive writers

The writers are embedded over a chronological write trace: `FileHelper`
becomes a list of `(absolute position, byte)` write events plus the tracked
`position`; `seek` moves the position, `write_buffer` appends events. -/

/-- Write-trace model of `FileHelper` on the output file. -/
structure WFile where
  events : List (Nat × Nat)
  position : Nat
deriving DecidableEq

/-- A fresh output file. -/
def emptyWFile : WFile := ⟨[], 0⟩

/-- The `(position, byte)` events of writing `bytes` starting at `pos`. -/
def eventsFrom : Nat → List Nat → List (Nat × Nat)
  | _, [] => []
  | pos, b :: rest => (pos, b % 256) :: eventsFrom (pos + 1) rest

/-- Embeds `write_buffer` on the trace model (no keytable on writes). -/
def wfWrite (f : WFile) (bytes : List Nat) : WFile :=
  ⟨f.events ++ eventsFrom f.position bytes, f.position + bytes.length⟩

/-- Embeds `seek(SeekFrom::Start(pos))`. -/
def wfSeek (f : WFile) (pos : Nat) : WFile := ⟨f.events, pos⟩

/-- Big-endian `u16` byte decomposition (`to_be_bytes`). -/
def u16beBytes (v : Nat) : List Nat := [v / 256 % 256, v % 256]

/-- Big-endian `u32` byte decomposition (`to_be_bytes`). -/
def u32beBytes (v : Nat) : List Nat :=
  [v / 16777216 % 256, v / 65536 % 256, v / 256 % 256, v % 256]

/-- Little-endian `u32` byte decomposition (`to_le_bytes`). -/
def u32leBytes (v : Nat) : List Nat :=
  [v % 256, v / 256 % 256, v / 65536 % 256, v / 16777216 % 256]

/-- Embeds `write_u16_be`. -/
def wfWriteU16be (f : WFile) (v : Nat) : WFile := wfWrite f (u16beBytes v)

/-- Embeds `write_u32_be`. -/
def wfWriteU32be (f : WFile) (v : Nat) : WFile := wfWrite f (u32beBytes v)

/-- Embeds `write_shiftjis`: the (externally) Shift-JIS-encoded name bytes, then NUL. -/
def wfWriteShiftjis (f : WFile) (nameBytes : List Nat) : WFile :=
  wfWrite f (nameBytes ++ [0])

/-- An input file handed to a writer: its archive-internal path (as both the
path string and its external Shift-JIS encoding) and its content bytes. -/
structure FileInput where
  path : List Char
  nameBytes : List Nat
  content : List Nat

/-- One iteration of the first (header) loop of `create_sar_archive`
(archive.rs): name, a zero offset placeholder whose position is recorded,
and the entry size. -/
def sarHeaderStep (st : WFile × List Nat) (e : FileInput) : WFile × List Nat :=
  let f := wfWriteShiftjis st.1 e.nameBytes
  let loc := f.position
  let f := wfWriteU32be f 0
  let f := wfWriteU32be f e.content.length
  (f, st.2 ++ [loc])

/-- One iteration of the second (body) loop of `create_sar_archive`
(archive.rs): back-patch the offset slot, then pump the file bytes. -/
def sarBodyStep (endOfHeader : Nat) (f : WFile) (e : FileInput × Nat) : WFile :=
  let entryOffset := f.position
  let f := wfSeek f e.2
  let f := wfWriteU32be f (entryOffset - endOfHeader)
  let f := wfSeek f entryOffset
  wfWrite f e.1.content

/-- Embeds `create_sar_archive` (archive.rs): entry-count guard first (`false` with
nothing written), then the two-pass header/body write.  Returns the Rust
`bool` and the write trace. -/
def createSarArchive (entries : List FileInput) : Bool × List (Nat × Nat) :=
  let f := emptyWFile
  if 65535 < entries.length then (false, f.events)
  else
    let f := wfWriteU16be f entries.length
    let f := wfWriteU32be f 0
    let st := entries.foldl sarHeaderStep (f, [])
    let f := st.1
    let endOfHeader := f.position
    let f := wfSeek f 2
    let f := wfWriteU32be f endOfHeader
    let f := wfSeek f endOfHeader
    let f := (entries.zip st.2).foldl (sarBodyStep endOfHeader) f
    (true, f.events)

/-- Embeds `file_encoding_to_use` (archive.rs): with neither flag set everything is
RAW; only files whose lowercase path ends in `.wav` or `.bmp` are inspected;
then the first four bytes (read into a zero-initialised buffer, short reads
ignored) select the codec. -/
def fileEncodingToUse (path : List Char) (content : List Nat) (bzip2 spb : Bool) :
    Compression :=
  if !bzip2 && !spb then Compression.none
  else if ¬(".wav".toList.isSuffixOf (path.map Char.toLower)) ∧
      ¬(".bmp".toList.isSuffixOf (path.map Char.toLower)) then
    Compression.none
  else if content.getD 0 0 = 82 ∧ content.getD 1 0 = 73 ∧ content.getD 2 0 = 70 ∧
      content.getD 3 0 = 70 then
    match bzip2 with
    | true => Compression.bzip2
    | false => Compression.none
  else if content.getD 0 0 = 66 ∧ content.getD 1 0 = 77 then
    if spb then Compression.spb
    else if bzip2 then Compression.bzip2
    else Compression.none
  else Compression.none

/-- Embeds `compression_to_byte` (archive.rs). -/
def compressionToByte : Compression → Nat
  | Compression.none => 0
  | Compression.spb => 1
  | Compression.lzss => 2
  | Compression.bzip2 => 4

/-- The body bytes the `create_nsa_archive` entry loop writes for one entry
(archive.rs, the `match compression` block): RAW pumps the file through
`write_file`, the SPB arm's `encode_spb()` call is commented out and the
LZSS arm is empty (neither writes anything), and the BZ2 arm pumps the
(external) bzip2 encoder's stream — with no size prefix written before it. -/
def nsaEntryBody (compression : Compression) (bz2Compress : List Nat → List Nat)
    (content : List Nat) : List Nat :=
  match compression with
  | Compression.none => content
  | Compression.spb => []
  | Compression.lzss => []
  | Compression.bzip2 => bz2Compress content

/-- One iteration of the first (header) loop of `create_nsa_archive`
(archive.rs): name, codec choice byte, and three zero placeholders whose
position is recorded. -/
def nsaHeaderStep (bzip2 spb : Bool) (st : WFile × List (Nat × Compression)) (e : FileInput) :
    WFile × List (Nat × Compression) :=
  let f := wfWriteShiftjis st.1 e.nameBytes
  let encoding := fileEncodingToUse e.path e.content bzip2 spb
  let f := wfWrite f [compressionToByte encoding]
  let loc := f.position
  let f := wfWriteU32be f 0
  let f := wfWriteU32be f 0
  let f := wfWriteU32be f 0
  (f, st.2 ++ [(loc, encoding)])

/-- One iteration of the second (body) loop of `create_nsa_archive`
(archive.rs): write the codec-dependent body at the current position, then
back-patch offset, compressed size and decompressed size (every codec arm
returns `decompressed_size` as the compressed size; the loop does not seek
back past the patched slot before the next iteration). -/
def nsaBodyStep (bz2Compress : List Nat → List Nat) (endOfHeader : Nat) (f : WFile)
    (e : FileInput × (Nat × Compression)) : WFile :=
  let entryOffset := f.position
  let f := wfSeek f entryOffset
  let decompressedSize := e.1.content.length
  let f := wfWrite f (nsaEntryBody e.2.2 bz2Compress e.1.content)
  let compressedSize := decompressedSize
  let f := wfSeek f e.2.1
  let f := wfWriteU32be f (entryOffset - endOfHeader)
  let f := wfWriteU32be f compressedSize
  wfWriteU32be f decompressedSize

/-- Embeds `create_nsa_archive` (archive.rs): entry-count guard first (`false` with
nothing written), then the two-pass header/body write with per-entry codec
choice. -/
def createNsaArchive (entries : List FileInput) (offset : Nat) (bzip2 spb : Bool)
    (bz2Compress : List Nat → List Nat) : Bool × List (Nat × Nat) :=
  let f := emptyWFile
  if 65535 < entries.length then (false, f.events)
  else
    let f := wfWriteU16be f entries.length
    let f := wfWriteU32be f 0
    let st := entries.foldl (nsaHeaderStep bzip2 spb) (f, [])
    let f := st.1
    let endOfHeader := f.position + offset
    let f := wfSeek f 2
    let f := wfWriteU32be f endOfHeader
    let f := wfSeek f endOfHeader
    let f := (entries.zip st.2).foldl (nsaBodyStep bz2Compress endOfHeader) f
    (true, f.events)

/-! ### lib.rs: keytable loading -/

/-- The `'sequence` inner loop of `create_keytable` (lib.rs): starting from
the running 256-entry table (NOT reset between outer iterations), insert
successive buffer bytes at increasing indices until a byte already present
anywhere in the table is met. -/
def keytableScan : List Nat → Nat → List Nat → List Nat
  | table, _, [] => table
  | table, tableIndex, b :: rest =>
    if b ∈ table then table
    else keytableScan (table.set tableIndex b) (tableIndex + 1) rest

/-- Embeds `create_keytable` (lib.rs): scan from every start position.  The code
sets `found_table = false` at the top of each outer iteration and never
assigns `true` to it anywhere, so the `if found_table break` after the
scan never fires and the final `if !found_table` panic (here `none`) is
reached unconditionally. -/
def createKeytable (buffer : List Nat) : Option (List Nat) :=
  let init : List Nat × Bool := (List.replicate 256 0, false)
  let st := (List.range buffer.length).foldl
    (fun (st : List Nat × Bool) i => (keytableScan st.1 0 (buffer.drop i), false))
    init
  if st.2 then some st.1 else Option.none

/-! ### Spec-side definitions

Definitions below follow the specification's words (not the source); the
theorems compare them with the embeddings above. -/

/-- Spec §4.2: `min_bits(v)` is 0 if `v == 0` else `⌊log2 v⌋ + 1`. -/
def specMinBits (v : Nat) : Nat := if v = 0 then 0 else Nat.log2 v + 1

/-- Spec §4.2 (claim C2): `add = (prev < sample)`. -/
def specAdd (prev sample : Nat) : Bool := decide (prev < sample)

/-- Spec §4.2 (claim C2): the encoded magnitude is `diff - 1` when adding
(`diff = |sample - prev|`), else `diff`. -/
def specMagnitude (prev sample : Nat) : Nat :=
  if prev < sample then sample - prev - 1 else prev - sample

/-- The spec-side difference record for one sample. -/
def specDiff (prev sample : Nat) : SpbDifference :=
  ⟨specAdd prev sample, specMagnitude prev sample⟩

/-- Claim C2's normative header-selection table, computed from the
closed-form per-sample differences (the running `prev` of sample `k + 1` is
sample `k`): `max_bits = 0` without an add is Stamp4; with an add,
ReadBitPlusOne with `b = 0` (`bits_to_read = 0`); `max_bits = 1` is
ReadBitPlusOne with `b = 1`; `max_bits ∈ 2..6` is ReadBits with
`h = max_bits - 1` (the header the encoder emits for `bits_to_read =
max_bits`); `max_bits ≥ 7` is Read4. -/
def specHeaderChoice (prev b0 b1 b2 b3 : Nat) : SpbHeader :=
  let e0 := specDiff prev b0
  let e1 := specDiff b0 b1
  let e2 := specDiff b1 b2
  let e3 := specDiff b2 b3
  let maxBits := ((((specMinBits e0.difference).max (specMinBits e1.difference)).max
    (specMinBits e2.difference)).max (specMinBits e3.difference))
  let addUsed := e0.add_difference || e1.add_difference || e2.add_difference || e3.add_difference
  if maxBits = 0 then
    if addUsed then SpbHeader.readBitPlusOne ⟨e0, e1, e2, e3, 0⟩ else SpbHeader.stamp4
  else if maxBits = 1 then SpbHeader.readBitPlusOne ⟨e0, e1, e2, e3, 1⟩
  else if maxBits ≤ 6 then SpbHeader.readBitsHdr ⟨e0, e1, e2, e3, maxBits⟩
  else SpbHeader.read4

/-- Claim C3's stored BZ2 entry layout: 4-byte little-endian decompressed
size, then the bzip2 stream. -/
def specBz2EntryLayout (bz2Compress : List Nat → List Nat) (content : List Nat) : List Nat :=
  u32leBytes content.length ++ bz2Compress content

/-- Claim C5: the file's first four bytes are `RIFF`. -/
def startsRIFF (content : List Nat) : Bool := decide (content.take 4 = [82, 73, 70, 70])

/-- Claim C5: the file's first bytes are `BM`. -/
def startsBM (content : List Nat) : Bool := decide (content.take 2 = [66, 77])

/-- The lowercase-extension gate the amended claim C5 adds: the NSA writer
inspects only files whose lowercase path ends in `.wav` or `.bmp`. -/
def hasWavOrBmpExt (path : List Char) : Bool :=
  ".wav".toList.isSuffixOf (path.map Char.toLower) ||
    ".bmp".toList.isSuffixOf (path.map Char.toLower)

/-- Amended claim C5's codec-choice table. -/
def specNsaCodecChoice (path : List Char) (content : List Nat) (bzip2 spb : Bool) :
    Compression :=
  if bzip2 = false ∧ spb = false then Compression.none
  else if hasWavOrBmpExt path = false then Compression.none
  else if startsRIFF content then (if bzip2 then Compression.bzip2 else Compression.none)
  else if startsBM content then
    (if spb then Compression.spb else if bzip2 then Compression.bzip2 else Compression.none)
  else Compression.none

/-- The transposition keytable exchanging 0 and 1 (a permutation of
`0..256`), used as a counterexample keytable. -/
def swapKeytable : List Nat := 1 :: 0 :: (List.range 254).map (· + 2)

/-! ## Helper lemmas: bit streams -/

theorem bitsOf_length (k v : Nat) : (bitsOf k v).length = k := by
  induction k generalizing v with
  | zero => rfl
  | succ k ih => simp [bitsOf, ih]

theorem natOfBits_nil : natOfBits [] = 0 := rfl

theorem foldl_natOfBits_step (l : List Bool) (acc : Nat) :
    l.foldl (fun acc b => 2 * acc + (if b then 1 else 0)) acc =
      acc * 2 ^ l.length + natOfBits l := by
  induction l generalizing acc with
  | nil => simp [natOfBits]
  | cons b t ih =>
    simp only [List.foldl_cons, List.length_cons, natOfBits]
    rw [ih, ih (2 * 0 + if b then 1 else 0)]
    ring

theorem natOfBits_append (l1 l2 : List Bool) :
    natOfBits (l1 ++ l2) = natOfBits l1 * 2 ^ l2.length + natOfBits l2 := by
  unfold natOfBits
  rw [List.foldl_append, foldl_natOfBits_step l2 (List.foldl _ 0 l1)]
  rfl

theorem natOfBits_bitsOf (k v : Nat) (h : v < 2 ^ k) : natOfBits (bitsOf k v) = v := by
  induction k generalizing v with
  | zero => simp [bitsOf, natOfBits]; omega
  | succ k ih =>
    have hdiv : v / 2 < 2 ^ k := by
      rw [Nat.pow_succ] at h; omega
    simp only [bitsOf, natOfBits_append, List.length_singleton]
    rw [ih (v / 2) hdiv]
    have : natOfBits [decide (v % 2 = 1)] = v % 2 := by
      rcases Nat.mod_two_eq_zero_or_one v with h2 | h2 <;> simp [h2, natOfBits]
    rw [this]; omega

theorem readBits_bitsOf_append (k v : Nat) (rest : List Bool) (h : v < 2 ^ k) :
    readBits k (bitsOf k v ++ rest) = some (v, rest) := by
  unfold readBits
  have hlen : (bitsOf k v).length = k := bitsOf_length k v
  rw [if_pos (by simp [hlen])]
  rw [List.take_left' hlen, List.drop_left' hlen, natOfBits_bitsOf k v h]

theorem bitsOf_snoc (k v : Nat) (b : Bool) :
    bitsOf k v ++ [b] = bitsOf (k + 1) (2 * v + b.toNat) := by
  have hdiv : (2 * v + b.toNat) / 2 = v := by cases b <;> simp <;> omega
  have hmod : decide ((2 * v + b.toNat) % 2 = 1) = b := by
    cases b <;> simp [Nat.add_mul_mod_self_left] <;> omega
  simp only [bitsOf, hdiv, hmod]

theorem readBits_field (k v : Nat) (b : Bool) (rest : List Bool) (h : v < 2 ^ k) :
    readBits (k + 1) ((bitsOf k v ++ [b]) ++ rest) = some (2 * v + b.toNat, rest) := by
  rw [bitsOf_snoc]
  exact readBits_bitsOf_append (k + 1) (2 * v + b.toNat) rest
    (by cases b <;> simp [Nat.pow_succ] <;> omega)

theorem readBits_single (b : Bool) (rest : List Bool) :
    readBits 1 (b :: rest) = some (b.toNat, rest) := by
  have : b :: rest = (bitsOf 0 0 ++ [b]) ++ rest := by simp [bitsOf]
  rw [this, readBits_field 0 0 b rest (by simp)]
  simp

/-! ## Helper lemmas: min_bits -/

theorem minBitsAux_shift (a : Nat) : ∀ b c, minBitsAux a (b + c) = minBitsAux a b + c := by
  induction a using Nat.strong_induction_on with
  | _ a ih =>
    intro b c
    by_cases ha : a = 0
    · subst ha; simp [minBitsAux]
    · have hlt : a / 2 < a := Nat.div_lt_self (Nat.pos_of_ne_zero ha) (by omega)
      rw [minBitsAux, if_neg ha]
      conv_rhs => rw [minBitsAux, if_neg ha]
      rw [show b + c + 1 = b + 1 + c by omega]
      exact ih (a / 2) hlt (b + 1) c

theorem minBits_two_le (v : Nat) (h : 2 ≤ v) : minBits v = minBits (v / 2) + 1 := by
  have hv : v ≠ 0 := by omega
  have hv2 : v / 2 ≠ 0 := by omega
  rw [minBits, if_neg hv, minBits, if_neg hv2]
  rw [minBitsAux, if_neg hv2]
  exact minBitsAux_shift (v / 2 / 2) 1 1

theorem minBits_one : minBits 1 = 1 := by
  rw [minBits]; simp [minBitsAux]

theorem minBits_zero : minBits 0 = 0 := rfl

theorem minBits_eq_specMinBits (v : Nat) : minBits v = specMinBits v := by
  induction v using Nat.strong_induction_on with
  | _ v ih =>
    rcases Nat.lt_or_ge v 2 with hv | hv
    · interval_cases v
      · rfl
      · rw [minBits_one]; simp [specMinBits, Nat.log2]
    · rw [minBits_two_le v hv]
      have hdiv : v / 2 < v := by omega
      rw [ih (v / 2) hdiv]
      have h2 : v / 2 ≠ 0 := by omega
      have hv0 : v ≠ 0 := by omega
      simp only [specMinBits, if_neg h2, if_neg hv0]
      conv_rhs => rw [Nat.log2]
      rw [if_pos hv]

theorem specMinBits_le_iff (d k : Nat) : specMinBits d ≤ k ↔ d < 2 ^ k := by
  by_cases hd : d = 0
  · subst hd; simp [specMinBits, Nat.pos_pow_of_pos]
  · rw [specMinBits, if_neg hd]
    constructor
    · intro h
      exact (Nat.log2_lt hd).mp (by omega)
    · intro h
      have hk := (Nat.log2_lt hd).mpr h
      omega

theorem minBits_le_iff (d k : Nat) : minBits d ≤ k ↔ d < 2 ^ k := by
  rw [minBits_eq_specMinBits]; exact specMinBits_le_iff d k

theorem minBits_le_one (d : Nat) (h : d ≤ 1) : minBits d ≤ 1 := by
  rw [minBits_le_iff]; omega

/-! ## Helper lemmas: bit_distances refines the spec's window classification -/

theorem spbStep_eq (lastByte b : Nat) (hb : b < 256) :
    spbStep lastByte b = (specDiff lastByte b, b, decide (lastByte < b)) := by
  unfold spbStep specDiff specAdd specMagnitude u8add u8sub
  by_cases hlt : lastByte < b
  · simp only [if_pos hlt, decide_eq_true hlt]
    have : lastByte + (b - lastByte) = b := by omega
    rw [this, Nat.mod_eq_of_lt hb]
  · simp only [if_neg hlt, decide_eq_false hlt]
    have : lastByte + 256 - (lastByte - b) = b + 256 := by omega
    rw [this, Nat.add_mod_right, Nat.mod_eq_of_lt hb]

theorem specMagnitude_self (p : Nat) : specMagnitude p p = 0 := by
  simp [specMagnitude]

theorem specDiff_magnitude_zero (prev b : Nat) (h : specMagnitude prev b = 0)
    (hadd : specAdd prev b = false) : b = prev := by
  simp only [specAdd, decide_eq_false_iff_not, not_lt] at hadd
  rw [specMagnitude, if_neg (by omega)] at h
  omega

theorem bitDistances_eq (prev b0 b1 b2 b3 : Nat)
    (h0 : b0 < 256) (h1 : b1 < 256) (h2 : b2 < 256) (h3 : b3 < 256) :
    bitDistances prev b0 b1 b2 b3 = some (specHeaderChoice prev b0 b1 b2 b3) := by
  unfold bitDistances
  rw [spbStep_eq prev b0 h0]
  simp only
  rw [spbStep_eq b0 b1 h1, spbStep_eq b1 b2 h2, spbStep_eq b2 b3 h3]
  simp only [minBits_eq_specMinBits, Nat.zero_max]
  set e0 := specDiff prev b0 with he0
  set e1 := specDiff b0 b1 with he1
  set e2 := specDiff b1 b2 with he2
  set e3 := specDiff b2 b3 with he3
  set maxBits := (((specMinBits e0.difference).max (specMinBits e1.difference)).max
    (specMinBits e2.difference)).max (specMinBits e3.difference) with hmb
  -- the first panic never fires: four equal samples give four zero subtract
  -- differences, hence max_bits_to_read = 0
  rw [if_neg ?panicOne]
  case panicOne =>
    rintro ⟨hq0, hq1, hq2, hq3, hne⟩
    apply hne
    subst hq0 hq1 hq2 hq3
    simp [hmb, he0, he1, he2, he3, specDiff, specMagnitude_self, specMinBits]
  -- the second panic never fires: max_bits_to_read ≥ 2 forces a difference
  -- of at least 2
  rw [if_neg ?panicTwo]
  case panicTwo =>
    rintro ⟨⟨hgt, _⟩, hsmall⟩
    push_neg at hsmall
    obtain ⟨s0, s1, s2, s3⟩ := hsmall
    have m0 : specMinBits e0.difference ≤ 1 := by rw [specMinBits_le_iff]; omega
    have m1 : specMinBits e1.difference ≤ 1 := by rw [specMinBits_le_iff]; omega
    have m2 : specMinBits e2.difference ≤ 1 := by rw [specMinBits_le_iff]; omega
    have m3 : specMinBits e3.difference ≤ 1 := by rw [specMinBits_le_iff]; omega
    have : maxBits ≤ 1 := by
      rw [hmb]
      exact Nat.max_le.mpr ⟨Nat.max_le.mpr ⟨Nat.max_le.mpr ⟨m0, m1⟩, m2⟩, m3⟩
    omega
  -- the add flags coincide with the implicit_add flags
  have haddflags :
      (decide (prev < b0) || decide (b0 < b1) || decide (b1 < b2) || decide (b2 < b3)) =
      (e0.add_difference || e1.add_difference || e2.add_difference || e3.add_difference) := by
    rw [he0, he1, he2, he3]; rfl
  unfold specHeaderChoice
  simp only [← he0, ← he1, ← he2, ← he3, ← hmb]
  by_cases hz : maxBits = 0
  · rw [if_pos hz, if_pos hz]
    rw [hz, haddflags]
    by_cases hadd : (e0.add_difference || e1.add_difference || e2.add_difference ||
        e3.add_difference) = true
    · rw [hadd]; simp
    · rw [Bool.not_eq_true] at hadd
      rw [hadd]; simp
  · rw [if_neg hz, if_neg hz]
    by_cases ho : maxBits = 1
    · rw [if_pos ho, if_pos ho, ho]
    · rw [if_neg ho, if_neg ho]
      by_cases hs : maxBits ≤ 6
      · rw [if_pos hs, if_pos hs]
      · rw [if_neg hs, if_neg hs]

/-! ## Helper lemmas: facts extracted from the chosen chunk header -/

theorem le_max_chain0 (x y z w : Nat) : x ≤ ((x.max y).max z).max w :=
  le_trans (le_trans (Nat.le_max_left x y) (Nat.le_max_left _ z)) (Nat.le_max_left _ w)

theorem le_max_chain1 (x y z w : Nat) : y ≤ ((x.max y).max z).max w :=
  le_trans (le_trans (Nat.le_max_right x y) (Nat.le_max_left _ z)) (Nat.le_max_left _ w)

theorem le_max_chain2 (x y z w : Nat) : z ≤ ((x.max y).max z).max w :=
  le_trans (Nat.le_max_right _ z) (Nat.le_max_left _ w)

theorem le_max_chain3 (x y z w : Nat) : w ≤ ((x.max y).max z).max w :=
  Nat.le_max_right _ w

theorem specHeaderChoice_stamp4 (prev b0 b1 b2 b3 : Nat)
    (h : specHeaderChoice prev b0 b1 b2 b3 = SpbHeader.stamp4) :
    b0 = prev ∧ b1 = prev ∧ b2 = prev ∧ b3 = prev := by
  simp only [specHeaderChoice] at h
  split_ifs at h with hmb hadd hone hsix
  · -- max_bits = 0 and no add flag set
    have hm0 : specMinBits (specDiff prev b0).difference = 0 := by
      have := le_max_chain0 (specMinBits (specDiff prev b0).difference)
        (specMinBits (specDiff b0 b1).difference) (specMinBits (specDiff b1 b2).difference)
        (specMinBits (specDiff b2 b3).difference)
      omega
    have hm1 : specMinBits (specDiff b0 b1).difference = 0 := by
      have := le_max_chain1 (specMinBits (specDiff prev b0).difference)
        (specMinBits (specDiff b0 b1).difference) (specMinBits (specDiff b1 b2).difference)
        (specMinBits (specDiff b2 b3).difference)
      omega
    have hm2 : specMinBits (specDiff b1 b2).difference = 0 := by
      have := le_max_chain2 (specMinBits (specDiff prev b0).difference)
        (specMinBits (specDiff b0 b1).difference) (specMinBits (specDiff b1 b2).difference)
        (specMinBits (specDiff b2 b3).difference)
      omega
    have hm3 : specMinBits (specDiff b2 b3).difference = 0 := by
      have := le_max_chain3 (specMinBits (specDiff prev b0).difference)
        (specMinBits (specDiff b0 b1).difference) (specMinBits (specDiff b1 b2).difference)
        (specMinBits (specDiff b2 b3).difference)
      omega
    have hz0 : specMagnitude prev b0 = 0 := by
      have := (specMinBits_le_iff (specDiff prev b0).difference 0).mp (by omega)
      simpa [specDiff] using this
    have hz1 : specMagnitude b0 b1 = 0 := by
      have := (specMinBits_le_iff (specDiff b0 b1).difference 0).mp (by omega)
      simpa [specDiff] using this
    have hz2 : specMagnitude b1 b2 = 0 := by
      have := (specMinBits_le_iff (specDiff b1 b2).difference 0).mp (by omega)
      simpa [specDiff] using this
    have hz3 : specMagnitude b2 b3 = 0 := by
      have := (specMinBits_le_iff (specDiff b2 b3).difference 0).mp (by omega)
      simpa [specDiff] using this
    simp only [Bool.or_eq_true, not_or, Bool.not_eq_true] at hadd
    obtain ⟨⟨⟨ha0, ha1⟩, ha2⟩, ha3⟩ := hadd
    have e0 : b0 = prev := specDiff_magnitude_zero prev b0 hz0 (by simpa [specDiff] using ha0)
    have e1 : b1 = b0 := specDiff_magnitude_zero b0 b1 hz1 (by simpa [specDiff] using ha1)
    have e2 : b2 = b1 := specDiff_magnitude_zero b1 b2 hz2 (by simpa [specDiff] using ha2)
    have e3 : b3 = b2 := specDiff_magnitude_zero b2 b3 hz3 (by simpa [specDiff] using ha3)
    exact ⟨e0, by omega, by omega, by omega⟩

theorem specHeaderChoice_readBitsHdr (prev b0 b1 b2 b3 : Nat) (d : SpbDifferences)
    (h : specHeaderChoice prev b0 b1 b2 b3 = SpbHeader.readBitsHdr d) :
    d.d0 = specDiff prev b0 ∧ d.d1 = specDiff b0 b1 ∧ d.d2 = specDiff b1 b2 ∧
      d.d3 = specDiff b2 b3 ∧ 2 ≤ d.bits_to_read ∧ d.bits_to_read ≤ 6 ∧
      d.d0.difference < 2 ^ d.bits_to_read ∧ d.d1.difference < 2 ^ d.bits_to_read ∧
      d.d2.difference < 2 ^ d.bits_to_read ∧ d.d3.difference < 2 ^ d.bits_to_read := by
  simp only [specHeaderChoice] at h
  split_ifs at h with hmb hadd hone hsix
  · -- max_bits ∈ 2..6
    rw [SpbHeader.readBitsHdr.injEq] at h
    subst h
    refine ⟨rfl, rfl, rfl, rfl, by dsimp only; omega, by dsimp only; omega, ?_, ?_, ?_, ?_⟩
    · rw [← specMinBits_le_iff]
      exact le_max_chain0 _ _ _ _
    · rw [← specMinBits_le_iff]
      exact le_max_chain1 _ _ _ _
    · rw [← specMinBits_le_iff]
      exact le_max_chain2 _ _ _ _
    · rw [← specMinBits_le_iff]
      exact le_max_chain3 _ _ _ _

theorem specHeaderChoice_readBitPlusOne (prev b0 b1 b2 b3 : Nat) (d : SpbDifferences)
    (h : specHeaderChoice prev b0 b1 b2 b3 = SpbHeader.readBitPlusOne d) :
    d.d0 = specDiff prev b0 ∧ d.d1 = specDiff b0 b1 ∧ d.d2 = specDiff b1 b2 ∧
      d.d3 = specDiff b2 b3 ∧ d.bits_to_read ≤ 1 ∧
      d.d0.difference < 2 ^ d.bits_to_read ∧ d.d1.difference < 2 ^ d.bits_to_read ∧
      d.d2.difference < 2 ^ d.bits_to_read ∧ d.d3.difference < 2 ^ d.bits_to_read := by
  simp only [specHeaderChoice] at h
  split_ifs at h with hmb hadd hone hsix
  · -- max_bits = 0 with an add used: bits_to_read = 0
    rw [SpbHeader.readBitPlusOne.injEq] at h
    subst h
    refine ⟨rfl, rfl, rfl, rfl, by dsimp only; omega, ?_, ?_, ?_, ?_⟩
    · rw [← specMinBits_le_iff]
      have := le_max_chain0 (specMinBits (specDiff prev b0).difference)
        (specMinBits (specDiff b0 b1).difference) (specMinBits (specDiff b1 b2).difference)
        (specMinBits (specDiff b2 b3).difference)
      dsimp only
      omega
    · rw [← specMinBits_le_iff]
      have := le_max_chain1 (specMinBits (specDiff prev b0).difference)
        (specMinBits (specDiff b0 b1).difference) (specMinBits (specDiff b1 b2).difference)
        (specMinBits (specDiff b2 b3).difference)
      dsimp only
      omega
    · rw [← specMinBits_le_iff]
      have := le_max_chain2 (specMinBits (specDiff prev b0).difference)
        (specMinBits (specDiff b0 b1).difference) (specMinBits (specDiff b1 b2).difference)
        (specMinBits (specDiff b2 b3).difference)
      dsimp only
      omega
    · rw [← specMinBits_le_iff]
      have := le_max_chain3 (specMinBits (specDiff prev b0).difference)
        (specMinBits (specDiff b0 b1).difference) (specMinBits (specDiff b1 b2).difference)
        (specMinBits (specDiff b2 b3).difference)
      dsimp only
      omega
  · -- max_bits = 1: bits_to_read = 1
    rw [SpbHeader.readBitPlusOne.injEq] at h
    subst h
    refine ⟨rfl, rfl, rfl, rfl, by dsimp only; omega, ?_, ?_, ?_, ?_⟩
    · rw [← specMinBits_le_iff]
      have := le_max_chain0 (specMinBits (specDiff prev b0).difference)
        (specMinBits (specDiff b0 b1).difference) (specMinBits (specDiff b1 b2).difference)
        (specMinBits (specDiff b2 b3).difference)
      dsimp only
      omega
    · rw [← specMinBits_le_iff]
      have := le_max_chain1 (specMinBits (specDiff prev b0).difference)
        (specMinBits (specDiff b0 b1).difference) (specMinBits (specDiff b1 b2).difference)
        (specMinBits (specDiff b2 b3).difference)
      dsimp only
      omega
    · rw [← specMinBits_le_iff]
      have := le_max_chain2 (specMinBits (specDiff prev b0).difference)
        (specMinBits (specDiff b0 b1).difference) (specMinBits (specDiff b1 b2).difference)
        (specMinBits (specDiff b2 b3).difference)
      dsimp only
      omega
    · rw [← specMinBits_le_iff]
      have := le_max_chain3 (specMinBits (specDiff prev b0).difference)
        (specMinBits (specDiff b0 b1).difference) (specMinBits (specDiff b1 b2).difference)
        (specMinBits (specDiff b2 b3).difference)
      dsimp only
      omega

theorem applyDiff_specDiff (prev b : Nat) (hb : b < 256) :
    applyDiff prev (specDiff prev b) = b := by
  unfold applyDiff specDiff specAdd specMagnitude u8add u8sub
  by_cases hlt : prev < b
  · rw [if_pos (by simpa using hlt), if_pos hlt]
    have h1 : prev + (b - prev - 1 + 1) = b := by omega
    rw [h1, Nat.mod_eq_of_lt hb]
  · rw [if_neg (by simpa using hlt), if_neg hlt]
    have h1 : prev + 256 - (prev - b) = b + 256 := by omega
    rw [h1, Nat.add_mod_right, Nat.mod_eq_of_lt hb]

theorem decodeByteStep_specDiff (prev b : Nat) (hb : b < 256) :
    decodeByteStep prev
      (2 * (specDiff prev b).difference + (specDiff prev b).add_difference.toNat) = b := by
  unfold decodeByteStep specDiff specAdd specMagnitude u8add u8sub
  by_cases hlt : prev < b
  · rw [if_pos hlt]
    simp only [decide_eq_true hlt, Bool.toNat_true]
    have hmod : (2 * (b - prev - 1) + 1) % 2 = 1 := by omega
    have hdiv : (2 * (b - prev - 1) + 1) / 2 = b - prev - 1 := by omega
    rw [if_pos hmod, hdiv]
    have h1 : prev + (b - prev - 1 + 1) = b := by omega
    rw [h1, Nat.mod_eq_of_lt hb]
  · rw [if_neg hlt]
    simp only [decide_eq_false hlt, Bool.toNat_false]
    have hmod : ¬((2 * (prev - b) + 0) % 2 = 1) := by omega
    have hdiv : (2 * (prev - b) + 0) / 2 = prev - b := by omega
    rw [if_neg hmod, hdiv]
    have h1 : prev + 256 - (prev - b) = b + 256 := by omega
    rw [h1, Nat.add_mod_right, Nat.mod_eq_of_lt hb]

theorem readBits_field' (k v : Nat) (b : Bool) (rest : List Bool) (h : v < 2 ^ k) :
    readBits (k + 1) (bitsOf k v ++ (b :: rest)) = some (2 * v + b.toNat, rest) := by
  have heq : bitsOf k v ++ (b :: rest) = (bitsOf k v ++ [b]) ++ rest := by simp
  rw [heq, readBits_field k v b rest h]

theorem getD_lt_256 (l : List Nat) (h : ∀ x ∈ l, x < 256) (n : Nat) : l.getD n 0 < 256 := by
  rcases Nat.lt_or_ge n l.length with hn | hn
  · rw [List.getD_eq_getElem l 0 hn]
    exact h _ (List.getElem_mem hn)
  · rw [List.getD_eq_default l 0 hn]
    omega

theorem decodeFields_spec (w prev b0 b1 b2 b3 : Nat) (rest : List Bool)
    (hb0 : b0 < 256) (hb1 : b1 < 256) (hb2 : b2 < 256) (hb3 : b3 < 256)
    (hm0 : (specDiff prev b0).difference < 2 ^ w)
    (hm1 : (specDiff b0 b1).difference < 2 ^ w)
    (hm2 : (specDiff b1 b2).difference < 2 ^ w)
    (hm3 : (specDiff b2 b3).difference < 2 ^ w) :
    decodeFields (w + 1) prev
      (bitsOf w (specDiff prev b0).difference ++ ((specDiff prev b0).add_difference ::
        (bitsOf w (specDiff b0 b1).difference ++ ((specDiff b0 b1).add_difference ::
          (bitsOf w (specDiff b1 b2).difference ++ ((specDiff b1 b2).add_difference ::
            (bitsOf w (specDiff b2 b3).difference ++ ((specDiff b2 b3).add_difference ::
              rest)))))))) =
      some ((b0, b1, b2, b3), b3, rest) := by
  rw [decodeFields, readBits_field' w _ _ _ hm0]
  dsimp only
  rw [readBits_field' w _ _ _ hm1]
  dsimp only
  rw [readBits_field' w _ _ _ hm2]
  dsimp only
  rw [readBits_field' w _ _ _ hm3]
  dsimp only
  rw [decodeByteStep_specDiff prev b0 hb0, decodeByteStep_specDiff b0 b1 hb1,
    decodeByteStep_specDiff b1 b2 hb2, decodeByteStep_specDiff b2 b3 hb3]

theorem chunks_roundtrip (buf : List Nat) (total : Nat) (hbuf : ∀ x ∈ buf, x < 256) :
    ∀ n i, total ≤ i + n → 1 ≤ i →
      ∃ bits out,
        encodeChunks buf total i (buf.getD (i - 1) 0) = some bits ∧
        (∀ rest, decodeChunks total i (buf.getD (i - 1) 0) (bits ++ rest) = some (out, rest)) ∧
        total ≤ i + out.length ∧
        (∀ j, j < out.length → out.getD j 0 = buf.getD (i + j) 0) := by
  intro n
  induction n with
  | zero =>
    intro i hni hi
    refine ⟨[], [], ?_, ?_, by omega, by simp⟩
    · rw [encodeChunks, if_neg (by omega)]
    · intro rest
      rw [decodeChunks, if_neg (by omega)]
      simp
  | succ n ih =>
    intro i hni hi
    by_cases hlt : i < total
    case neg =>
      refine ⟨[], [], ?_, ?_, by omega, by simp⟩
      · rw [encodeChunks, if_neg hlt]
      · intro rest
        rw [decodeChunks, if_neg hlt]
        simp
    case pos =>
      obtain ⟨bits', out', he', hd', hl', hv'⟩ := ih (i + 4) (by omega) (by omega)
      have hidx : i + 4 - 1 = i + 3 := by omega
      rw [hidx] at he' hd'
      have hb0 : buf.getD i 0 < 256 := getD_lt_256 buf hbuf i
      have hb1 : buf.getD (i + 1) 0 < 256 := getD_lt_256 buf hbuf (i + 1)
      have hb2 : buf.getD (i + 2) 0 < 256 := getD_lt_256 buf hbuf (i + 2)
      have hb3 : buf.getD (i + 3) 0 < 256 := getD_lt_256 buf hbuf (i + 3)
      have hbd := bitDistances_eq (buf.getD (i - 1) 0) (buf.getD i 0) (buf.getD (i + 1) 0)
        (buf.getD (i + 2) 0) (buf.getD (i + 3) 0) hb0 hb1 hb2 hb3
      rcases hspec : specHeaderChoice (buf.getD (i - 1) 0) (buf.getD i 0) (buf.getD (i + 1) 0)
          (buf.getD (i + 2) 0) (buf.getD (i + 3) 0) with _ | d | _ | d
      · -- Stamp4
        obtain ⟨hq0, hq1, hq2, hq3⟩ := specHeaderChoice_stamp4 _ _ _ _ _ hspec
        rw [hspec] at hbd
        refine ⟨bitsOf 3 0 ++ bits',
          buf.getD i 0 :: buf.getD (i + 1) 0 :: buf.getD (i + 2) 0 :: buf.getD (i + 3) 0 :: out',
          ?_, ?_, ?_, ?_⟩
        · rw [encodeChunks, if_pos hlt, hbd]
          dsimp only
          rw [show buf.getD (i - 1) 0 = buf.getD (i + 3) 0 from hq3.symm, he']
        · intro rest
          rw [decodeChunks, if_pos hlt, List.append_assoc,
            readBits_bitsOf_append 3 0 _ (by norm_num)]
          dsimp only
          rw [if_pos rfl]
          rw [hq0, hq1, hq2, hq3]
          rw [hq3] at hd'
          rw [hd']
        · simp only [List.length_cons]
          omega
        · intro j hj
          simp only [List.length_cons] at hj
          rcases j with _ | _ | _ | _ | j
          · simp
          · simp
          · simp
          · simp
          · simp only [List.getD_cons_succ]
            rw [hv' j (by omega)]
            congr 1
            omega
      · -- ReadBits
        obtain ⟨hd0, hd1, hd2, hd3, hwlo, hwhi, hm0, hm1, hm2, hm3⟩ :=
          specHeaderChoice_readBitsHdr _ _ _ _ _ d hspec
        rw [hspec] at hbd
        rw [hd0] at hm0
        rw [hd1] at hm1
        rw [hd2] at hm2
        rw [hd3] at hm3
        refine ⟨bitsOf 3 (d.bits_to_read - 1) ++
          readBitsFieldBits d.bits_to_read d.d0 ++ readBitsFieldBits d.bits_to_read d.d1 ++
          readBitsFieldBits d.bits_to_read d.d2 ++ readBitsFieldBits d.bits_to_read d.d3 ++ bits',
          buf.getD i 0 :: buf.getD (i + 1) 0 :: buf.getD (i + 2) 0 :: buf.getD (i + 3) 0 :: out',
          ?_, ?_, ?_, ?_⟩
        · rw [encodeChunks, if_pos hlt, hbd]
          dsimp only
          rw [hd0, hd1, hd2, hd3,
            applyDiff_specDiff _ _ hb0, applyDiff_specDiff _ _ hb1,
            applyDiff_specDiff _ _ hb2, applyDiff_specDiff _ _ hb3, he']
        · intro rest
          rw [decodeChunks, if_pos hlt]
          simp only [readBitsFieldBits, hd0, hd1, hd2, hd3, List.append_assoc,
            List.cons_append, List.nil_append]
          rw [readBits_bitsOf_append 3 (d.bits_to_read - 1) _ (by omega)]
          dsimp only
          rw [if_neg (by omega : ¬(d.bits_to_read - 1 = 0)),
            if_neg (by omega : ¬(d.bits_to_read - 1 = 6)),
            if_pos (⟨by omega, by omega⟩ : 1 ≤ d.bits_to_read - 1 ∧ d.bits_to_read - 1 ≤ 5)]
          dsimp only
          rw [show d.bits_to_read - 1 + 2 = d.bits_to_read + 1 by omega]
          rw [decodeFields_spec d.bits_to_read _ _ _ _ _ _ hb0 hb1 hb2 hb3 hm0 hm1 hm2 hm3]
          dsimp only
          rw [hd']
        · simp only [List.length_cons]
          omega
        · intro j hj
          simp only [List.length_cons] at hj
          rcases j with _ | _ | _ | _ | j
          · simp
          · simp
          · simp
          · simp
          · simp only [List.getD_cons_succ]
            rw [hv' j (by omega)]
            congr 1
            omega
      · -- Read4
        rw [hspec] at hbd
        refine ⟨bitsOf 3 6 ++ bitsOf 8 (buf.getD i 0) ++ bitsOf 8 (buf.getD (i + 1) 0) ++
          bitsOf 8 (buf.getD (i + 2) 0) ++ bitsOf 8 (buf.getD (i + 3) 0) ++ bits',
          buf.getD i 0 :: buf.getD (i + 1) 0 :: buf.getD (i + 2) 0 :: buf.getD (i + 3) 0 :: out',
          ?_, ?_, ?_, ?_⟩
        · rw [encodeChunks, if_pos hlt, hbd]
          dsimp only
          rw [he']
        · intro rest
          rw [decodeChunks, if_pos hlt]
          simp only [List.append_assoc]
          rw [readBits_bitsOf_append 3 6 _ (by norm_num)]
          dsimp only
          rw [if_neg (by omega : ¬(6 : Nat) = 0), if_pos rfl]
          rw [readBits_bitsOf_append 8 _ _ hb0]
          dsimp only
          rw [readBits_bitsOf_append 8 _ _ hb1]
          dsimp only
          rw [readBits_bitsOf_append 8 _ _ hb2]
          dsimp only
          rw [readBits_bitsOf_append 8 _ _ hb3]
          dsimp only
          rw [hd']
        · simp only [List.length_cons]
          omega
        · intro j hj
          simp only [List.length_cons] at hj
          rcases j with _ | _ | _ | _ | j
          · simp
          · simp
          · simp
          · simp
          · simp only [List.getD_cons_succ]
            rw [hv' j (by omega)]
            congr 1
            omega
      · -- ReadBitPlusOne
        obtain ⟨hd0, hd1, hd2, hd3, hwle, hm0, hm1, hm2, hm3⟩ :=
          specHeaderChoice_readBitPlusOne _ _ _ _ _ d hspec
        rw [hspec] at hbd
        rw [hd0] at hm0
        rw [hd1] at hm1
        rw [hd2] at hm2
        rw [hd3] at hm3
        refine ⟨bitsOf 3 7 ++ [decide (d.bits_to_read = 1)] ++
          rbpoFieldBits d.bits_to_read d.d0 ++ rbpoFieldBits d.bits_to_read d.d1 ++
          rbpoFieldBits d.bits_to_read d.d2 ++ rbpoFieldBits d.bits_to_read d.d3 ++ bits',
          buf.getD i 0 :: buf.getD (i + 1) 0 :: buf.getD (i + 2) 0 :: buf.getD (i + 3) 0 :: out',
          ?_, ?_, ?_, ?_⟩
        · rw [encodeChunks, if_pos hlt, hbd]
          dsimp only
          rw [hd0, hd1, hd2, hd3,
            applyDiff_specDiff _ _ hb0, applyDiff_specDiff _ _ hb1,
            applyDiff_specDiff _ _ hb2, applyDiff_specDiff _ _ hb3, he']
        · intro rest
          rw [decodeChunks, if_pos hlt]
          rcases Nat.le_one_iff_eq_zero_or_eq_one.mp hwle with hbtr | hbtr
          · -- bits_to_read = 0: the written width bit is 0, fields are bare add flags
            rw [hbtr] at hm0 hm1 hm2 hm3
            simp only [hbtr, rbpoFieldBits, hd0, hd1, hd2, hd3, List.append_assoc,
              List.cons_append, List.nil_append, List.singleton_append,
              if_neg (by omega : ¬(0 : Nat) = 1)]
            rw [readBits_bitsOf_append 3 7 _ (by norm_num)]
            dsimp only
            rw [if_neg (by omega : ¬(7 : Nat) = 0), if_neg (by omega : ¬(7 : Nat) = 6),
              if_neg (by omega : ¬(1 ≤ (7 : Nat) ∧ 7 ≤ 5)), if_pos rfl]
            rw [readBits_single]
            dsimp only
            have hz := decodeFields_spec 0 (buf.getD (i - 1) 0) (buf.getD i 0)
              (buf.getD (i + 1) 0) (buf.getD (i + 2) 0) (buf.getD (i + 3) 0) (bits' ++ rest)
              hb0 hb1 hb2 hb3 hm0 hm1 hm2 hm3
            simp only [bitsOf, List.nil_append] at hz
            simp only [show (decide ((0 : Nat) = 1)) = false from rfl, Bool.toNat_false]
            rw [hz]
            dsimp only
            rw [hd']
          · -- bits_to_read = 1: a 1-bit magnitude precedes each add flag
            rw [hbtr] at hm0 hm1 hm2 hm3
            simp only [hbtr, rbpoFieldBits, hd0, hd1, hd2, hd3, List.append_assoc,
              List.cons_append, List.nil_append, List.singleton_append, if_pos rfl]
            rw [readBits_bitsOf_append 3 7 _ (by norm_num)]
            dsimp only
            rw [if_neg (by omega : ¬(7 : Nat) = 0), if_neg (by omega : ¬(7 : Nat) = 6),
              if_neg (by omega : ¬(1 ≤ (7 : Nat) ∧ 7 ≤ 5)), if_pos rfl]
            rw [readBits_single]
            dsimp only
            have hz := decodeFields_spec 1 (buf.getD (i - 1) 0) (buf.getD i 0)
              (buf.getD (i + 1) 0) (buf.getD (i + 2) 0) (buf.getD (i + 3) 0) (bits' ++ rest)
              hb0 hb1 hb2 hb3 hm0 hm1 hm2 hm3
            simp only [if_true, decide_True, Bool.toNat_true]
            rw [hz]
            dsimp only
            rw [hd']
        · simp only [List.length_cons]
          omega
        · intro j hj
          simp only [List.length_cons] at hj
          rcases j with _ | _ | _ | _ | j
          · simp
          · simp
          · simp
          · simp
          · simp only [List.getD_cons_succ]
            rw [hv' j (by omega)]
            congr 1
            omega

/-! ## Helper lemmas: channel streams and the serpentine index map -/

theorem channel_roundtrip (buf : List Nat) (total : Nat) (hbuf : ∀ x ∈ buf, x < 256) :
    ∃ bits out,
      encodeChannel buf total = some bits ∧
      (∀ rest, decodeChannel total (bits ++ rest) = some (out, rest)) ∧
      (∀ idx, idx < total → out.getD idx 0 = buf.getD idx 0) := by
  obtain ⟨bits', out', he', hd', hl', hv'⟩ :=
    chunks_roundtrip buf total hbuf total 1 (by omega) (by omega)
  simp only [Nat.sub_self] at he' hd'
  refine ⟨bitsOf 8 (buf.getD 0 0) ++ bits', buf.getD 0 0 :: out', ?_, ?_, ?_⟩
  · rw [encodeChannel, he']
  · intro rest
    rw [decodeChannel, List.append_assoc,
      readBits_bitsOf_append 8 _ _ (getD_lt_256 buf hbuf 0)]
    dsimp only
    rw [hd']
  · intro idx hidx
    rcases idx with _ | idx
    · simp
    · simp only [List.getD_cons_succ]
      rw [hv' idx (by omega)]
      congr 1
      omega

theorem serpIdx_lt (w h idx : Nat) (hidx : idx < w * h) : serpIdx w idx < w * h := by
  have hw : 0 < w := by
    rcases Nat.eq_zero_or_pos w with h0 | hpos
    · subst h0; simp at hidx
    · exact hpos
  unfold serpIdx
  by_cases hodd : (idx / w) % 2 = 1
  · rw [if_pos hodd]
    have hy : idx / w < h := by
      rw [Nat.div_lt_iff_lt_mul hw, Nat.mul_comm h w]
      exact hidx
    have hsucc : (idx / w + 1) * w ≤ h * w := Nat.mul_le_mul_right w (by omega)
    have hx : idx % w < w := Nat.mod_lt _ hw
    have hmul : w * h = h * w := Nat.mul_comm w h
    have hexp : (idx / w + 1) * w = idx / w * w + w := by ring
    omega
  · rw [if_neg hodd]
    exact hidx

theorem serpIdx_invol (w h idx : Nat) (hidx : idx < w * h) :
    serpIdx w (serpIdx w idx) = idx := by
  have hw : 0 < w := by
    rcases Nat.eq_zero_or_pos w with h0 | hpos
    · subst h0; simp at hidx
    · exact hpos
  unfold serpIdx
  by_cases hodd : (idx / w) % 2 = 1
  · rw [if_pos hodd]
    have hx : idx % w < w := Nat.mod_lt _ hw
    have hr : w - 1 - idx % w < w := by omega
    have hdiv : (idx / w * w + (w - 1 - idx % w)) / w = idx / w := by
      rw [Nat.mul_comm (idx / w) w, Nat.mul_add_div hw, Nat.div_eq_of_lt hr]
      omega
    have hmod : (idx / w * w + (w - 1 - idx % w)) % w = w - 1 - idx % w := by
      rw [Nat.mul_comm (idx / w) w, Nat.mul_add_mod, Nat.mod_eq_of_lt hr]
    rw [if_pos (by rw [hdiv]; exact hodd), hdiv, hmod]
    have hback : w - 1 - (w - 1 - idx % w) = idx % w := by omega
    rw [hback]
    exact Nat.div_add_mod' idx w
  · rw [if_neg hodd, if_neg hodd]

theorem getD_map_range {α : Type} (g : Nat → α) (m j : Nat) (d : α) (hj : j < m) :
    ((List.range m).map g).getD j d = g j := by
  rw [List.getD_eq_getElem _ _ (by simpa using hj)]
  simp

theorem getD_append_left {α : Type} (l1 l2 : List α) (j : Nat) (d : α) (hj : j < l1.length) :
    (l1 ++ l2).getD j d = l1.getD j d := by
  rw [List.getD_eq_getElem _ _ (by simp; omega), List.getD_eq_getElem _ _ hj]
  exact List.getElem_append_left hj

theorem getD_map_chan (c : Nat) (l : List Pixel) (j : Nat) (hj : j < l.length) :
    (l.map (chan c)).getD j 0 = chan c (l.getD j zeroPixel) := by
  rw [List.getD_eq_getElem _ _ (by simpa using hj), List.getD_eq_getElem _ _ hj]
  simp

theorem getD_serpentine (w h : Nat) (pixels : List Pixel) (j : Nat) (hj : j < w * h) :
    (serpentine w h pixels).getD j zeroPixel = pixels.getD (serpIdx w j) zeroPixel := by
  unfold serpentine
  exact getD_map_range _ _ _ _ hj

theorem serpentine_length (w h : Nat) (pixels : List Pixel) :
    (serpentine w h pixels).length = w * h := by
  simp [serpentine]

theorem chan_zeroPixel (c : Nat) : chan c zeroPixel = 0 := by
  rcases c with _ | _ | c <;> rfl

theorem mem_serpentine (w h : Nat) (pixels : List Pixel) (p : Pixel)
    (hp : p ∈ serpentine w h pixels) : p ∈ pixels ∨ p = zeroPixel := by
  unfold serpentine at hp
  rw [List.mem_map] at hp
  obtain ⟨idx, _, rfl⟩ := hp
  rcases Nat.lt_or_ge (serpIdx w idx) pixels.length with hk | hk
  · left
    rw [List.getD_eq_getElem _ _ hk]
    exact List.getElem_mem hk
  · right
    rw [List.getD_eq_default _ _ hk]

/-! ## Claim C1 -/

/-- C1: for every width `w ≥ 1` and height `h ≥ 1` (each representable as
`u16`) and every in-range BGR image of those dimensions, decoding the bit
stream produced by `encode_spb` — under any trailing padding the byte-level
bit packer appends — and re-reading the decoded pixels as BGR yields exactly
the original pixel grid: `decode_spb` after `encode_spb` is the identity on
pixel content. -/
theorem c1_spb_roundtrip (w h : Nat) (pixels : List Pixel)
    (hw : 1 ≤ w) (hwle : w < 65536) (hh : 1 ≤ h) (hhle : h < 65536)
    (hlen : pixels.length = w * h)
    (hpx : ∀ p ∈ pixels, p.1 < 256 ∧ p.2.1 < 256 ∧ p.2.2 < 256) :
    ∃ bits, encodeSpb w h pixels = some bits ∧
      ∀ pad, decodeSpb (bits ++ pad) = some (w, h, pixels) := by
  set working := serpentine w h pixels ++ [zeroPixel, zeroPixel, zeroPixel, zeroPixel]
    with hworking
  have hwlen : working.length = w * h + 4 := by
    simp [hworking, serpentine_length]
  have hboundc : ∀ c, c < 3 → ∀ x ∈ working.map (chan c), x < 256 := by
    intro c hc x hx
    rw [List.mem_map] at hx
    obtain ⟨p, hp, rfl⟩ := hx
    rw [hworking, List.mem_append] at hp
    rcases hp with hp | hp
    · rcases mem_serpentine w h pixels p hp with hp | rfl
      · obtain ⟨h0, h1, h2⟩ := hpx p hp
        interval_cases c
        · exact h0
        · exact h1
        · exact h2
      · rw [chan_zeroPixel]; omega
    · have hz : p = zeroPixel := by simpa using hp
      subst hz
      rw [chan_zeroPixel]; omega
  obtain ⟨c0, out0, he0, hd0, hv0⟩ :=
    channel_roundtrip (working.map (chan 0)) (w * h) (hboundc 0 (by omega))
  obtain ⟨c1, out1, he1, hd1, hv1⟩ :=
    channel_roundtrip (working.map (chan 1)) (w * h) (hboundc 1 (by omega))
  obtain ⟨c2, out2, he2, hd2, hv2⟩ :=
    channel_roundtrip (working.map (chan 2)) (w * h) (hboundc 2 (by omega))
  refine ⟨bitsOf 16 w ++ bitsOf 16 h ++ c0 ++ c1 ++ c2, ?_, ?_⟩
  · simp only [encodeSpb]
    rw [← hworking, he0, he1, he2]
  · intro pad
    simp only [decodeSpb, List.append_assoc]
    rw [readBits_bitsOf_append 16 w _ (by omega)]
    dsimp only
    rw [readBits_bitsOf_append 16 h _ (by omega)]
    dsimp only
    rw [hd0 (c1 ++ (c2 ++ pad))]
    dsimp only
    rw [hd1 (c2 ++ pad)]
    dsimp only
    rw [hd2 pad]
    dsimp only
    have hgrid : (List.range (w * h)).map (fun idx =>
        ((out0.getD (serpIdx w idx) 0, out1.getD (serpIdx w idx) 0,
          out2.getD (serpIdx w idx) 0) : Pixel)) = pixels := by
      apply List.ext_getElem (by simp [hlen])
      intro n h1 h2
      have hn : n < w * h := by simpa using h1
      simp only [List.getElem_map, List.getElem_range]
      have hj : serpIdx w n < w * h := serpIdx_lt w h n hn
      rw [hv0 _ hj, hv1 _ hj, hv2 _ hj]
      rw [getD_map_chan 0 working _ (by omega), getD_map_chan 1 working _ (by omega),
        getD_map_chan 2 working _ (by omega)]
      have hws : working.getD (serpIdx w n) zeroPixel = pixels.getD n zeroPixel := by
        rw [hworking, getD_append_left _ _ _ _ (by rw [serpentine_length]; exact hj),
          getD_serpentine w h pixels _ hj, serpIdx_invol w h n hn]
      rw [hws, List.getD_eq_getElem pixels zeroPixel h2]
      rfl
    rw [hgrid]

/-- Witness for C1 at the concrete 1-by-1 image with BGR pixel (1, 2, 3). -/
theorem c1_spb_roundtrip_witness :
    ∃ bits, encodeSpb 1 1 [((1 : Nat), (2 : Nat), (3 : Nat))] = some bits ∧
      ∀ pad, decodeSpb (bits ++ pad) = some (1, 1, [((1 : Nat), (2 : Nat), (3 : Nat))]) :=
  c1_spb_roundtrip 1 1 [(1, 2, 3)] (by omega) (by omega) (by omega) (by omega) (by decide)
    (by decide)

/-! ## Claim C2 -/

/-- C2: for every previous byte and 4-sample window of bytes, `bit_distances`
computes each sample's add flag as `prev < sample` against the running
previous value, encodes magnitude `diff - 1` when adding else `diff`, and
selects the chunk header by the normative table (`specHeaderChoice`, which
is built from exactly those closed-form differences and the
`max_bits`/add-used dispatch of the claim); the internal consistency panics
never fire. -/
theorem c2_bit_distances_table (prev b0 b1 b2 b3 : Nat)
    (h0 : b0 < 256) (h1 : b1 < 256) (h2 : b2 < 256) (h3 : b3 < 256) :
    bitDistances prev b0 b1 b2 b3 = some (specHeaderChoice prev b0 b1 b2 b3) :=
  bitDistances_eq prev b0 b1 b2 b3 h0 h1 h2 h3

/-- Witness for C2 at a concrete window. -/
theorem c2_bit_distances_table_witness :
    bitDistances 10 11 12 13 14 = some (specHeaderChoice 10 11 12 13 14) :=
  c2_bit_distances_table 10 11 12 13 14 (by decide) (by decide) (by decide) (by decide)

/-! ## Claim C3 -/

/-- C3 (code bug): the BZ2 arm of the NSA writer's entry loop pumps only the
bzip2 stream — the claimed (and spec-mandated) 4-byte little-endian
decompressed-size field is never written, so for every compressor and every
input the stored body differs from the claimed layout, and `extract`'s BZ2
path (which skips 4 bytes) would drop the first four bytes of the bzip2
stream itself. -/
theorem c3_nsa_bz2_body_layout (bz2Compress bz2Decompress : List Nat → List Nat)
    (content : List Nat) :
    nsaEntryBody Compression.bzip2 bz2Compress content = bz2Compress content ∧
    nsaEntryBody Compression.bzip2 bz2Compress content ≠
      specBz2EntryLayout bz2Compress content ∧
    extractBzip2 bz2Decompress (nsaEntryBody Compression.bzip2 bz2Compress content) =
      bz2Decompress ((bz2Compress content).drop 4) := by
  refine ⟨rfl, ?_, rfl⟩
  intro hcontra
  have hlen : (bz2Compress content).length = (bz2Compress content).length + 4 := by
    conv_lhs =>
      rw [show bz2Compress content = specBz2EntryLayout bz2Compress content from hcontra]
    simp [specBz2EntryLayout, u32leBytes]
  omega

/-! ## Claim C10 -/

/-- C10: `read_slice` always returns exactly `size` bytes, zero-fills any
positions past end-of-stream, and is total (it raises no error), whereas the
fixed-width `read_buffer` (the basis of the `read_uN` family) fails exactly
when fewer than `N` bytes remain at the current position. -/
theorem c10_read_slice_unchecked (file : List Nat) (offset size : Nat) :
    (readSlice file offset size).length = size ∧
    (∀ k, k < size → file.length ≤ offset + k → (readSlice file offset size).getD k 1 = 0) ∧
    (∀ keyTable position n, file.length < position + n →
      readBuffer keyTable file position n = Option.none) ∧
    (∀ keyTable position n, position + n ≤ file.length →
      (readBuffer keyTable file position n).isSome = true) := by
  refine ⟨by simp [readSlice], ?_, ?_, ?_⟩
  · intro k hk hlen
    unfold readSlice
    rw [getD_map_range _ _ _ _ hk, if_neg (by omega)]
  · intro kt pos n h
    unfold readBuffer
    rw [if_neg (by omega)]
  · intro kt pos n h
    unfold readBuffer
    rw [if_pos h]
    rfl

/-- Witness for C10: a 1-byte stream read with size 3 yields 3 bytes with
zero fill and no error, while a 2-byte fixed-width read fails. -/
theorem c10_read_slice_unchecked_witness :
    (readSlice [5] 0 3).length = 3 ∧ (readSlice [5] 0 3).getD 2 1 = 0 ∧
    readBuffer defaultKeytable [5] 0 2 = Option.none ∧
    (readBuffer defaultKeytable [5] 0 1).isSome = true := by
  obtain ⟨h1, h2, h3, h4⟩ := c10_read_slice_unchecked [5] 0 3
  exact ⟨h1, h2 2 (by decide) (by decide), h3 defaultKeytable 0 2 (by decide),
    h4 defaultKeytable 0 1 (by decide)⟩

/-! ## Claim C4 -/

theorem swapKeytable_perm : List.Perm swapKeytable (List.range 256) := by
  have hmap : (List.range 254).map (· + 2) = List.range' 2 254 := by
    rw [List.range_eq_range']
    rw [show ((· + 2) : Nat → Nat) = (2 + ·) from by funext x; omega]
    rw [List.map_add_range']
  have h1 : List.range 256 = [0, 1] ++ List.range' 2 254 := by
    have happ := List.range'_append 0 2 254 1
    norm_num at happ
    rw [List.range_eq_range', ← happ]
    rfl
  have h2 : swapKeytable = [1, 0] ++ List.range' 2 254 := by
    rw [swapKeytable, hmap]
    rfl
  rw [h1, h2]
  exact List.Perm.append_right _ (List.Perm.swap 0 1 [])

theorem getD_range_map {α : Type} (l : List α) (d : α) :
    (List.range l.length).map (fun k => l.getD k d) = l := by
  apply List.ext_getElem (by simp)
  intro n h1 h2
  simp only [List.getElem_map, List.getElem_range]
  rw [List.getD_eq_getElem l d h2]

theorem read_slice_after_write (keyTable pre data : List Nat) :
    readSliceThroughKeytable keyTable (writeBuffer pre data) pre.length data.length =
      data.map (keytableLookup keyTable) := by
  have hread : readSlice (pre ++ data) pre.length data.length = data := by
    unfold readSlice
    apply List.ext_getElem (by simp)
    intro n h1 h2
    have hn : n < data.length := by simpa using h2
    simp only [List.getElem_map, List.getElem_range]
    rw [if_pos (by simp; omega)]
    rw [List.getD_eq_getElem _ _ (by simp; omega)]
    rw [List.getElem_append_right (by omega)]
    congr 1
    omega
  unfold readSliceThroughKeytable writeBuffer
  rw [hread]

/-- C4 counterexample: the keytable exchanging bytes 0 and 1 is a permutation
of `0..256`, yet a RAW byte written through Byte I/O and read back through
`read_slice_through_keytable` with that same keytable is not the original:
writes do not apply the keytable, reads do. -/
theorem c4_keytable_roundtrip_counterexample :
    List.Perm swapKeytable (List.range 256) ∧
    readSliceThroughKeytable swapKeytable (writeBuffer [] [0]) 0 1 ≠ [0] :=
  ⟨swapKeytable_perm, by decide⟩

/-- C4 amended: reading a RAW entry back through keytable `K` after writing
it (the writer applies no keytable) yields the pointwise `K`-image of the
original bytes — equal to the original exactly when `K` acts as the identity
on them, e.g. for the identity keytable on in-range bytes. -/
theorem c4_keytable_roundtrip_amended (keyTable pre data : List Nat) :
    readSliceThroughKeytable keyTable (writeBuffer pre data) pre.length data.length =
      data.map (keytableLookup keyTable) ∧
    ((∀ b ∈ data, b < 256) →
      readSliceThroughKeytable defaultKeytable (writeBuffer pre data) pre.length data.length =
        data) := by
  refine ⟨read_slice_after_write keyTable pre data, ?_⟩
  intro hb
  rw [read_slice_after_write defaultKeytable pre data]
  have hid : ∀ b ∈ data, keytableLookup defaultKeytable b = b := by
    intro b hbmem
    unfold keytableLookup defaultKeytable
    rw [List.getD_eq_getElem _ _ (by simpa using hb b hbmem)]
    simp
  calc data.map (keytableLookup defaultKeytable) = data.map id := List.map_congr_left hid
    _ = data := List.map_id data

/-- Witness for C4's amended claim at a concrete keytable and byte list. -/
theorem c4_keytable_roundtrip_amended_witness :
    readSliceThroughKeytable defaultKeytable (writeBuffer [9] [0, 1, 2]) 1 3 = [0, 1, 2] :=
  (c4_keytable_roundtrip_amended defaultKeytable [9] [0, 1, 2]).2 (by decide)

/-! ## Claim C5 -/

theorem startsRIFF_iff (content : List Nat) :
    startsRIFF content = true ↔
      (content.getD 0 0 = 82 ∧ content.getD 1 0 = 73 ∧ content.getD 2 0 = 70 ∧
        content.getD 3 0 = 70) := by
  unfold startsRIFF
  rcases content with _ | ⟨a, _ | ⟨b, _ | ⟨c, _ | ⟨d, rest⟩⟩⟩⟩ <;> simp

theorem startsBM_iff (content : List Nat) :
    startsBM content = true ↔ (content.getD 0 0 = 66 ∧ content.getD 1 0 = 77) := by
  unfold startsBM
  rcases content with _ | ⟨a, _ | ⟨b, rest⟩⟩ <;> simp

/-- C5 counterexample: with both flags set, a file named `a.txt` whose
content begins with `RIFF` is still stored RAW — the writer inspects the
header only for files whose lowercase name ends in `.wav` or `.bmp`, while
the claim demands BZ2 for every `RIFF` file. -/
theorem c5_codec_choice_counterexample :
    fileEncodingToUse ("a.txt".toList) [82, 73, 70, 70] true true = Compression.none ∧
    Compression.none ≠ Compression.bzip2 := by
  constructor
  · decide
  · decide

/-- C5 amended: the NSA per-entry codec choice equals the claimed table
extended with the extension gate: with neither flag set the codec is RAW;
files whose lowercase path does not end in `.wav` or `.bmp` are RAW
regardless of content; otherwise a `RIFF` file gets BZ2 when `bzip2` is set
else RAW, a `BM` file gets SPB when `spb` is set, else BZ2 when `bzip2` is
set, else RAW, and any other content is RAW. -/
theorem c5_codec_choice_amended (path : List Char) (content : List Nat) (bzip2 spb : Bool) :
    fileEncodingToUse path content bzip2 spb = specNsaCodecChoice path content bzip2 spb := by
  by_cases hflags : bzip2 = false ∧ spb = false
  · obtain ⟨rfl, rfl⟩ := hflags
    simp [fileEncodingToUse, specNsaCodecChoice]
  · unfold fileEncodingToUse specNsaCodecChoice
    rw [if_neg hflags]
    have hg : (!bzip2 && !spb) = false := by
      rcases bzip2 <;> rcases spb <;> simp_all
    rw [hg, if_neg Bool.false_ne_true]
    by_cases hext : ¬(".wav".toList.isSuffixOf (path.map Char.toLower)) ∧
        ¬(".bmp".toList.isSuffixOf (path.map Char.toLower))
    · rw [if_pos hext]
      have hext' : hasWavOrBmpExt path = false := by
        unfold hasWavOrBmpExt
        obtain ⟨h1, h2⟩ := hext
        simp only [Bool.not_eq_true] at h1 h2
        rw [h1, h2]
        rfl
      rw [hext', if_pos rfl]
    · rw [if_neg hext]
      have hext' : hasWavOrBmpExt path = true := by
        unfold hasWavOrBmpExt
        rcases h1 : ".wav".toList.isSuffixOf (path.map Char.toLower)
        · rcases h2 : ".bmp".toList.isSuffixOf (path.map Char.toLower)
          · exact absurd ⟨by rw [h1]; simp, by rw [h2]; simp⟩ hext
          · rfl
        · rfl
      rw [hext', if_neg (show ¬(true = false) by simp)]
      by_cases hR : content.getD 0 0 = 82 ∧ content.getD 1 0 = 73 ∧ content.getD 2 0 = 70 ∧
          content.getD 3 0 = 70
      · rw [if_pos hR, show startsRIFF content = true from (startsRIFF_iff content).mpr hR,
          if_pos rfl]
        rcases bzip2 <;> rfl
      · rw [if_neg hR]
        have hRf : startsRIFF content = false := by
          rcases hsr : startsRIFF content
          · rfl
          · exact absurd ((startsRIFF_iff content).mp hsr) hR
        rw [hRf, if_neg Bool.false_ne_true]
        by_cases hBM : content.getD 0 0 = 66 ∧ content.getD 1 0 = 77
        · rw [if_pos hBM, show startsBM content = true from (startsBM_iff content).mpr hBM,
            if_pos rfl]
        · rw [if_neg hBM]
          have hBf : startsBM content = false := by
            rcases hsb : startsBM content
            · rfl
            · exact absurd ((startsBM_iff content).mp hsb) hBM
          rw [hBf, if_neg Bool.false_ne_true]

/-! ## Claim C6 -/

theorem suffix_eq_of_length_eq (s1 s2 l : List Char) (h1 : s1 <:+ l) (h2 : s2 <:+ l)
    (hlen : s1.length = s2.length) : s1 = s2 := by
  obtain ⟨t1, ht1⟩ := h1
  obtain ⟨t2, ht2⟩ := h2
  rw [← ht2] at ht1
  have hlt : t1.length = t2.length := by
    have := congrArg List.length ht1
    simp at this
    omega
  exact (List.append_inj ht1 hlt).2

/-- C6: when parsing an NSA header, a tag-0 entry whose lowercase name ends
in `.nbz` becomes BZ2, one ending in `.spb` becomes SPB, any other tag-0
entry stays RAW with the on-disk decompressed size; and every parsed entry
whose effective compression is BZ2 or SPB has its decompressed size
discarded (unknown) regardless of the on-disk field. -/
theorem c6_nsa_parse_overrides (name : List Char) (offF sizeF dsF fileOff : Nat) :
    ((".nbz".toList.isSuffixOf (name.map Char.toLower)) →
      parseNsaEntry name 0 offF sizeF dsF fileOff = some
        { name := name, offset := offF + fileOff, size := sizeF,
          decompressed_size := Option.none, compression := Compression.bzip2 }) ∧
    ((".spb".toList.isSuffixOf (name.map Char.toLower)) →
      parseNsaEntry name 0 offF sizeF dsF fileOff = some
        { name := name, offset := offF + fileOff, size := sizeF,
          decompressed_size := Option.none, compression := Compression.spb }) ∧
    (¬(".nbz".toList.isSuffixOf (name.map Char.toLower)) →
      ¬(".spb".toList.isSuffixOf (name.map Char.toLower)) →
      parseNsaEntry name 0 offF sizeF dsF fileOff = some
        { name := name, offset := offF + fileOff, size := sizeF,
          decompressed_size := some dsF, compression := Compression.none }) ∧
    (∀ tagByte e, parseNsaEntry name tagByte offF sizeF dsF fileOff = some e →
      e.compression = Compression.bzip2 ∨ e.compression = Compression.spb →
      e.decompressed_size = Option.none) := by
  refine ⟨?_, ?_, ?_, ?_⟩
  · intro hnbz
    unfold parseNsaEntry nsaEffectiveCompression
    rw [if_pos rfl, if_pos hnbz]
    rfl
  · intro hspb
    have hnot : ¬(".nbz".toList.isSuffixOf (name.map Char.toLower)) := by
      intro hnbz
      have : ".nbz".toList = ".spb".toList := by
        apply suffix_eq_of_length_eq _ _ (name.map Char.toLower)
        · exact List.isSuffixOf_iff_suffix.mp hnbz
        · exact List.isSuffixOf_iff_suffix.mp hspb
        · rfl
      exact absurd this (by decide)
    unfold parseNsaEntry nsaEffectiveCompression
    rw [if_pos rfl, if_neg (by rw [Bool.not_eq_true] at hnot ⊢; exact hnot), if_pos hspb]
    rfl
  · intro hnbz hspb
    unfold parseNsaEntry nsaEffectiveCompression
    rw [if_pos rfl, if_neg (by rw [Bool.not_eq_true] at hnbz ⊢; exact hnbz),
      if_neg (by rw [Bool.not_eq_true] at hspb ⊢; exact hspb)]
    rfl
  · intro tagByte e hparse hcomp
    unfold parseNsaEntry at hparse
    rcases hc : nsaEffectiveCompression tagByte name with _ | c
    · rw [hc] at hparse
      simp at hparse
    · rw [hc] at hparse
      dsimp only at hparse
      injection hparse with he
      subst he
      dsimp only at hcomp ⊢
      rw [if_pos hcomp]

/-- Witness for C6 at the spec's concrete scenario: entry `v.nbz`, tag 0,
on-disk decompressed size `0xFFFFFFFF`. -/
theorem c6_nsa_parse_overrides_witness :
    parseNsaEntry ("v.nbz".toList) 0 0 5 4294967295 13 = some
      { name := "v.nbz".toList, offset := 0 + 13, size := 5,
        decompressed_size := Option.none, compression := Compression.bzip2 } :=
  (c6_nsa_parse_overrides ("v.nbz".toList) 0 5 4294967295 13).1 (by decide)

/-! ## Claim C7 -/

/-- C7: both archive writers check the entry-count limit first: more than
65535 entries fails (`false`) with an empty write trace — no bytes reach the
output file — while at most 65535 entries passes the limit check and the
writers run to completion (`true`). -/
theorem c7_entry_limit (entries : List FileInput) (offset : Nat) (bzip2 spb : Bool)
    (bz2Compress : List Nat → List Nat) :
    (65535 < entries.length →
      createSarArchive entries = (false, []) ∧
      createNsaArchive entries offset bzip2 spb bz2Compress = (false, [])) ∧
    (entries.length ≤ 65535 →
      (createSarArchive entries).1 = true ∧
      (createNsaArchive entries offset bzip2 spb bz2Compress).1 = true) := by
  constructor
  · intro hgt
    constructor
    · rw [createSarArchive, if_pos hgt]
      rfl
    · rw [createNsaArchive, if_pos hgt]
      rfl
  · intro hle
    constructor
    · rw [createSarArchive, if_neg (by omega)]
    · rw [createNsaArchive, if_neg (by omega)]

/-- Witness for C7: 65536 entries fail with nothing written; an empty entry
list passes the limit check. -/
theorem c7_entry_limit_witness :
    (createSarArchive (List.replicate 65536 ⟨[], [], []⟩) = (false, []) ∧
      createNsaArchive (List.replicate 65536 ⟨[], [], []⟩) 0 true true (fun x => x) =
        (false, [])) ∧
    ((createSarArchive []).1 = true ∧
      (createNsaArchive [] 0 true true (fun x => x)).1 = true) :=
  ⟨(c7_entry_limit (List.replicate 65536 ⟨[], [], []⟩) 0 true true (fun x => x)).1
      (by rw [List.length_replicate]; omega),
   (c7_entry_limit [] 0 true true (fun x => x)).2 (by simp)⟩

/-! ## Claim C8 -/

theorem createKeytable_always_none (buffer : List Nat) :
    createKeytable buffer = Option.none := by
  have hflag : ∀ (l : List Nat) (st : List Nat × Bool), st.2 = false →
      (l.foldl (fun (st : List Nat × Bool) i => (keytableScan st.1 0 (buffer.drop i), false))
        st).2 = false := by
    intro l
    induction l with
    | nil => intro st h; exact h
    | cons a t ih => intro st _; exact ih _ rfl
  have hz := hflag (List.range buffer.length) (List.replicate 256 0, false) rfl
  simp only [createKeytable]
  rw [hz, if_neg Bool.false_ne_true]

/-- C8 (code bug): `create_keytable` never sets `found_table`, so it panics
on every input; even the perfect keytable file containing the 256 pairwise
distinct bytes `0, 1, …, 255` fails to load, although the claim requires
the loader to succeed whenever such a 256-byte run exists. -/
theorem c8_create_keytable_always_fails :
    createKeytable (List.range 256) = Option.none ∧
    (List.range 256).length = 256 ∧ (List.range 256).Nodup ∧
    (∀ b ∈ List.range 256, b < 256) :=
  ⟨createKeytable_always_none _, by simp, List.nodup_range 256, by simp⟩

/-! ## Claim C9 -/

/-- C9 counterexample: the NS2 parser builds a RAW entry of size 2 with
`decompressed_size` unknown, not equal to its stored size. -/
theorem c9_raw_decompressed_size_counterexample :
    parseNs2Header [("a.txt".toList, 2)] 13 =
      [{ name := "a.txt".toList, offset := 13, size := 2,
         decompressed_size := Option.none, compression := Compression.none }] ∧
    (Option.none : Option Nat) ≠ some 2 := by
  constructor
  · decide
  · decide

theorem parseNs2Header_fold_ds (raw : List (List Char × Nat)) :
    ∀ (acc : List ArchiveEntry) (off : Nat),
      (∀ e ∈ acc, e.decompressed_size = Option.none) →
      ∀ e ∈ (raw.foldl
        (fun (st : List ArchiveEntry × Nat) e =>
          (st.1 ++ [parseNs2Entry e.1 e.2 st.2], st.2 + e.2)) (acc, off)).1,
        e.decompressed_size = Option.none := by
  induction raw with
  | nil =>
    intro acc off hacc e he
    exact hacc e he
  | cons hd tl ih =>
    intro acc off hacc e he
    refine ih _ _ ?_ e he
    intro e' he'
    rw [List.mem_append] at he'
    rcases he' with he' | he'
    · exact hacc e' he'
    · rw [List.mem_singleton] at he'
      subst he'
      rfl

/-- C9 amended: the SAR parser gives every (RAW) entry a known
decompressed size equal to its stored size; the NS2 parser leaves the
decompressed size unknown for every entry, RAW included; and the NSA parser
stores the on-disk decompressed-size field for RAW entries (equal to the
stored size only when the header says so). -/
theorem c9_raw_decompressed_size_amended :
    (∀ raw fileOffset e, e ∈ parseSarHeader raw fileOffset →
      e.compression = Compression.none ∧ e.decompressed_size = some e.size) ∧
    (∀ raw offsetOfFileData e, e ∈ parseNs2Header raw offsetOfFileData →
      e.decompressed_size = Option.none) ∧
    (∀ name tagByte offF sizeF dsF fileOff e,
      parseNsaEntry name tagByte offF sizeF dsF fileOff = some e →
      e.compression = Compression.none →
      e.decompressed_size = some dsF) := by
  refine ⟨?_, ?_, ?_⟩
  · intro raw fileOffset e he
    unfold parseSarHeader at he
    rw [List.mem_map] at he
    obtain ⟨x, _, rfl⟩ := he
    exact ⟨rfl, rfl⟩
  · intro raw offsetOfFileData e he
    unfold parseNs2Header at he
    exact parseNs2Header_fold_ds raw [] offsetOfFileData (by simp) e he
  · intro name tagByte offF sizeF dsF fileOff e hparse hcomp
    unfold parseNsaEntry at hparse
    rcases hc : nsaEffectiveCompression tagByte name with _ | c
    · rw [hc] at hparse
      simp at hparse
    · rw [hc] at hparse
      dsimp only at hparse
      injection hparse with he
      subst he
      dsimp only at hcomp ⊢
      subst hcomp
      rw [if_neg (by simp)]

/-- Witness for C9's amended claim at a concrete RAW NSA entry. -/
theorem c9_raw_decompressed_size_amended_witness :
    ({ name := "a.txt".toList, offset := 1 + 4, size := 2,
       decompressed_size := some 3, compression := Compression.none } :
       ArchiveEntry).decompressed_size = some 3 :=
  c9_raw_decompressed_size_amended.2.2 "a.txt".toList 0 1 2 3 4 _ (by decide) (by decide)
end Rnscripter
